import Mathlib

/-!
# package-operator: PackageManifest reconciler

A shallow embedding of

* `internal/controllers/controllers.go` (finalizer helpers),
* `internal/controllers/packagemanifest/types.go` (finalizer registry),
* `internal/controllers/packagemanifest/packagemanifest_controller.go`
  (cache label, `Reconcile`, job name synthesis),
* `apis/core/v1alpha1/packagemanifest_types.go` (the manifest type),

followed by theorems about them.

Go strings are modelled by `String`, Go slices by `List`, a Go `error` result
by `Option Err` (`none` is `nil`), a `(value, error)` result by `Except`.
The Kubernetes client is an explicit state-passing interface `Client` over an
arbitrary store state `σ`; every call the reconciler issues is recorded, in
order, in the `trace` of a `World`.
-/

namespace PackageOperator

/-! ## Errors -/

/-- Go `error` values. `notFound` and `conflict` stand for API status errors
with those reasons, `wrap msg e` for `fmt.Errorf(msg + ": %w", e)`. -/
inductive Err where
  | notFound (msg : String)
  | conflict (msg : String)
  | other (msg : String)
  | wrap (msg : String) (inner : Err)
  deriving DecidableEq

/-- `errors.IsNotFound` of apimachinery: the status reason of the error, looked
up through `%w` wrappers, is NotFound. -/
def IsNotFound : Err → Bool
  | .notFound _ => true
  | .conflict _ => false
  | .other _ => false
  | .wrap _ e => IsNotFound e

/-- `client.IgnoreNotFound`: `nil` for a NotFound error, the error otherwise. -/
def IgnoreNotFound (err : Err) : Option Err :=
  if IsNotFound err then none else some err

/-! ## Objects -/

/-- The part of `metav1.ObjectMeta` the controllers read or write. -/
structure ObjectMeta where
  Name : String
  Namespace : String
  Labels : List (String × String)
  Finalizers : List String
  ResourceVersion : String
  DeletionTimestamp : Option Nat
  deriving DecidableEq

/-- A `client.Object`: object metadata plus the fields of the concrete kind. -/
structure Object (β : Type) where
  Meta : ObjectMeta
  Rest : β
  deriving DecidableEq

/-- `PackageManifestSpec` of `packagemanifest_types.go`. -/
structure PackageManifestSpec where
  PackageImage : String
  TargetNamespace : String
  deriving DecidableEq

/-- `PackageManifestStatus` of `packagemanifest_types.go` (the phase only;
conditions are never read or written by the controller). -/
structure PackageManifestStatus where
  Phase : String
  deriving DecidableEq

/-- The fields of `PackageManifest` besides its metadata. -/
structure PackageManifestFields where
  Spec : PackageManifestSpec
  Status : PackageManifestStatus
  deriving DecidableEq

/-- `PackageManifest` of `packagemanifest_types.go`. -/
abbrev PackageManifest := Object PackageManifestFields

/-- `types.NamespacedName` / `client.ObjectKey`. -/
structure ObjectKey where
  Namespace : String
  Name : String
  deriving DecidableEq

/-- `corev1.Container`, the four fields the job template sets. -/
structure Container where
  Name : String
  Image : String
  Command : List String
  Args : List String
  deriving DecidableEq

/-- `batchv1.JobCondition`, type (`CondType`, as `Type` is reserved) and
status. -/
structure JobCondition where
  CondType : String
  Status : String
  deriving DecidableEq

/-- `batchv1.Job`: name, namespace, the containers of its pod template and its
status conditions. -/
structure Job where
  Name : String
  Namespace : String
  Containers : List Container
  Conditions : List JobCondition
  deriving DecidableEq

/-- `metav1.Time.IsZero` on `GetDeletionTimestamp()`: a nil pointer or the zero
time. -/
def DeletionTimestampIsZero (m : ObjectMeta) : Bool :=
  match m.DeletionTimestamp with
  | none => true
  | some t => t == 0

/-- Reading a Go `map[string]string`: the value of the key, `""` when absent. -/
def getLabel (labels : List (String × String)) (key : String) : String :=
  (labels.lookup key).getD ""

/-- Writing a Go `map[string]string`: the key is bound to the value, every
other key keeps its binding. -/
def setLabel (labels : List (String × String)) (key value : String) :
    List (String × String) :=
  (key, value) :: labels.filter (fun kv => kv.1 != key)

/-! ## The client -/

/-- The body of the merge patch built by `EnsureFinalizers` and
`RemoveFinalizers`: the JSON document
`{"metadata": {"resourceVersion": ..., "finalizers": ...}}`, which has these two
members and no other. -/
structure PatchDoc where
  resourceVersion : String
  finalizers : List String
  deriving DecidableEq

/-- The `client.Client` methods the controllers call, over a store state `σ`.
A successful `Get`, `Update` or `Patch` yields the object as the server returned
it (the Go client decodes the response into the object it was passed). -/
structure Client (σ β : Type) where
  Get : σ → ObjectKey → σ × Except Err (Object β)
  Update : σ → Object β → σ × Except Err (Object β)
  Patch : σ → Object β → PatchDoc → σ × Except Err (Object β)
  GetJob : σ → ObjectKey → σ × Except Err Job
  Create : σ → Job → σ × Except Err Job

/-- A call issued on the client: by the reconciler's own code, or, marked
`Cleaner`, by the cleaner of a finalizer while the deletion loop runs it. -/
inductive Call (β : Type) where
  | Get (key : ObjectKey)
  | Update (obj : Object β)
  | Patch (obj : Object β) (patch : PatchDoc)
  | GetJob (key : ObjectKey)
  | Create (job : Job)
  | Cleaner (finalizer : String) (call : Call β)
  deriving DecidableEq

/-- A call together with the error it returned (`none` for success). -/
structure Event (β : Type) where
  call : Call β
  err : Option Err
  deriving DecidableEq

/-- The store and the calls issued so far, oldest first. -/
structure World (σ β : Type) where
  store : σ
  trace : List (Event β)

/-- The error of a result, `none` for success. -/
def errOf {α : Type} : Except Err α → Option Err
  | .ok _ => none
  | .error e => some e

/-- `c.Get(ctx, key, &obj)`, recorded. -/
def World.Get {σ β : Type} (c : Client σ β) (w : World σ β) (key : ObjectKey) :
    World σ β × Except Err (Object β) :=
  let r := c.Get w.store key
  (⟨r.1, w.trace ++ [⟨.Get key, errOf r.2⟩]⟩, r.2)

/-- `c.Update(ctx, obj)`, recorded. -/
def World.Update {σ β : Type} (c : Client σ β) (w : World σ β) (obj : Object β) :
    World σ β × Except Err (Object β) :=
  let r := c.Update w.store obj
  (⟨r.1, w.trace ++ [⟨.Update obj, errOf r.2⟩]⟩, r.2)

/-- `c.Patch(ctx, obj, client.RawPatch(types.MergePatchType, patchJSON))`,
recorded. -/
def World.Patch {σ β : Type} (c : Client σ β) (w : World σ β) (obj : Object β)
    (patch : PatchDoc) : World σ β × Except Err (Object β) :=
  let r := c.Patch w.store obj patch
  (⟨r.1, w.trace ++ [⟨.Patch obj patch, errOf r.2⟩]⟩, r.2)

/-- `c.Get(ctx, key, &job)` for a job, recorded. -/
def World.GetJob {σ β : Type} (c : Client σ β) (w : World σ β) (key : ObjectKey) :
    World σ β × Except Err Job :=
  let r := c.GetJob w.store key
  (⟨r.1, w.trace ++ [⟨.GetJob key, errOf r.2⟩]⟩, r.2)

/-- `c.Create(ctx, &job)`, recorded. -/
def World.Create {σ β : Type} (c : Client σ β) (w : World σ β) (job : Job) :
    World σ β × Except Err Job :=
  let r := c.Create w.store job
  (⟨r.1, w.trace ++ [⟨.Create job, errOf r.2⟩]⟩, r.2)

/-- What a helper leaves behind: the world, the object the caller holds (Go
passes it by pointer) and the returned error. -/
structure Outcome (σ β : Type) where
  world : World σ β
  obj : Object β
  err : Option Err

/-! ## controllerutil (controller-runtime) -/

/-- `controllerutil.ContainsFinalizer`: the finalizer is in the object's list. -/
def ContainsFinalizer {β : Type} (o : Object β) (finalizer : String) : Bool :=
  o.Meta.Finalizers.contains finalizer

/-- `controllerutil.AddFinalizer`: appends the finalizer unless it is already in
the list. -/
def AddFinalizer {β : Type} (o : Object β) (finalizer : String) : Object β :=
  if o.Meta.Finalizers.contains finalizer then o
  else { o with Meta := { o.Meta with Finalizers := o.Meta.Finalizers ++ [finalizer] } }

/-- `controllerutil.RemoveFinalizer`: keeps, in order, the entries different
from the finalizer. -/
def RemoveFinalizer {β : Type} (o : Object β) (finalizer : String) : Object β :=
  { o with Meta := { o.Meta with
      Finalizers := o.Meta.Finalizers.filter (fun e => e != finalizer) } }

/-! ## controllers.go -/

/-- The constant `DynamicCacheLabel`. -/
def DynamicCacheLabel : String := "package-operator.run/cache"

/-- The constant `CachedFinalizer`. -/
def CachedFinalizer : String := "package-operator.run/cached"

/-- The loop of `EnsureFinalizers` (lines 26-32): the object and the flag
`noFinalizersToPatch` after the remaining finalizers. -/
def EnsureFinalizers.loop {β : Type} :
    List String → Object β → Bool → Object β × Bool
  | [], obj, noFinalizersToPatch => (obj, noFinalizersToPatch)
  | finalizer :: rest, obj, noFinalizersToPatch =>
    if ContainsFinalizer obj finalizer then
      EnsureFinalizers.loop rest obj noFinalizersToPatch
    else
      EnsureFinalizers.loop rest (AddFinalizer obj finalizer) false

/-- `EnsureFinalizers` (controllers.go, lines 21-52). `json.Marshal` of a map
of a string and a string slice cannot fail, so that branch is absent. -/
def EnsureFinalizers {σ β : Type} (c : Client σ β) (w : World σ β)
    (obj : Object β) (finalizers : List String) : Outcome σ β :=
  let r := EnsureFinalizers.loop finalizers obj true
  if r.2 then ⟨w, r.1, none⟩
  else
    let patch : PatchDoc :=
      { resourceVersion := r.1.Meta.ResourceVersion, finalizers := r.1.Meta.Finalizers }
    match w.Patch c r.1 patch with
    | (w1, .error err) => ⟨w1, r.1, some (.wrap "adding finalizer" err)⟩
    | (w1, .ok obj1) => ⟨w1, obj1, none⟩

/-- The loop of `RemoveFinalizers` (lines 60-66). -/
def RemoveFinalizers.loop {β : Type} :
    List String → Object β → Bool → Object β × Bool
  | [], obj, noFinalizersToPatch => (obj, noFinalizersToPatch)
  | finalizer :: rest, obj, noFinalizersToPatch =>
    if !ContainsFinalizer obj finalizer then
      RemoveFinalizers.loop rest obj noFinalizersToPatch
    else
      RemoveFinalizers.loop rest (RemoveFinalizer obj finalizer) false

/-- `RemoveFinalizers` (controllers.go, lines 55-85). -/
def RemoveFinalizers {σ β : Type} (c : Client σ β) (w : World σ β)
    (obj : Object β) (finalizers : List String) : Outcome σ β :=
  let r := RemoveFinalizers.loop finalizers obj true
  if r.2 then ⟨w, r.1, none⟩
  else
    let patch : PatchDoc :=
      { resourceVersion := r.1.Meta.ResourceVersion, finalizers := r.1.Meta.Finalizers }
    match w.Patch c r.1 patch with
    | (w1, .error err) => ⟨w1, r.1, some (.wrap "removing finalizer" err)⟩
    | (w1, .ok obj1) => ⟨w1, obj1, none⟩

/-- `EnsureCachedFinalizer` (controllers.go, lines 87-91). -/
def EnsureCachedFinalizer {σ β : Type} (c : Client σ β) (w : World σ β)
    (obj : Object β) : Outcome σ β :=
  EnsureFinalizers c w obj [CachedFinalizer]

/-! ## packagemanifest/types.go -/

/-- What a cleaner does with the client and the object pointer it is given:
it returns, leaving the object as `obj` and reporting `err`, or it issues one
call on the client and goes on according to the result of that call. -/
inductive CleanerSteps (β : Type) where
  | Return (obj : Object β) (err : Option Err)
  | Get (key : ObjectKey) (next : Except Err (Object β) → CleanerSteps β)
  | Update (obj : Object β) (next : Except Err (Object β) → CleanerSteps β)
  | Patch (obj : Object β) (patch : PatchDoc) (next : Except Err (Object β) → CleanerSteps β)
  | GetJob (key : ObjectKey) (next : Except Err Job → CleanerSteps β)
  | Create (job : Job) (next : Except Err Job → CleanerSteps β)

/-- The type `Cleaner`, `func(c client.Client, obj client.Object) error`: given
the client and the object, the calls it issues on that client, the object as it
leaves it (Go passes a pointer) and the error it reports. -/
abbrev Cleaner (σ β : Type) := Client σ β → Object β → CleanerSteps β

/-- Running what a cleaner does against the client: every call it issues acts
on the store and is recorded, marked with the cleaner's finalizer. -/
def CleanerSteps.run {σ β : Type} (c : Client σ β) (finalizer : String) :
    CleanerSteps β → World σ β → Outcome σ β
  | .Return obj err, w => ⟨w, obj, err⟩
  | .Get key next, w =>
    (next (c.Get w.store key).2).run c finalizer
      ⟨(c.Get w.store key).1,
        w.trace ++ [⟨.Cleaner finalizer (.Get key), errOf (c.Get w.store key).2⟩]⟩
  | .Update obj next, w =>
    (next (c.Update w.store obj).2).run c finalizer
      ⟨(c.Update w.store obj).1,
        w.trace ++ [⟨.Cleaner finalizer (.Update obj), errOf (c.Update w.store obj).2⟩]⟩
  | .Patch obj patch next, w =>
    (next (c.Patch w.store obj patch).2).run c finalizer
      ⟨(c.Patch w.store obj patch).1,
        w.trace ++ [⟨.Cleaner finalizer (.Patch obj patch),
          errOf (c.Patch w.store obj patch).2⟩]⟩
  | .GetJob key next, w =>
    (next (c.GetJob w.store key).2).run c finalizer
      ⟨(c.GetJob w.store key).1,
        w.trace ++ [⟨.Cleaner finalizer (.GetJob key), errOf (c.GetJob w.store key).2⟩]⟩
  | .Create job next, w =>
    (next (c.Create w.store job).2).run c finalizer
      ⟨(c.Create w.store job).1,
        w.trace ++ [⟨.Cleaner finalizer (.Create job), errOf (c.Create w.store job).2⟩]⟩

/-- The constant `ObjectDeploymentFinalizer`. -/
def ObjectDeploymentFinalizer : String :=
  "package-operator.run/package-manifest/object-deployment"

/-- The variable `FinalizersToCleaners`: one finalizer, whose cleaner does
nothing and returns `nil`. A Go map is iterated in some order; a registry is
the list of its entries in the order of one iteration. -/
def FinalizersToCleaners (σ β : Type) : List (String × Cleaner σ β) :=
  [(ObjectDeploymentFinalizer, fun _ obj => .Return obj none)]

/-- `packageManifestFinalizers` (types.go, lines 21-27), over a registry. -/
def packageManifestFinalizers {σ β : Type} (registry : List (String × Cleaner σ β)) :
    List String :=
  registry.map (fun e => e.1)

/-! ## packagemanifest_controller.go -/

/-- `strings.Split(s, sep)` for a separator of one character, on the characters
of `s`: the pieces between the separators, at least one piece. -/
def Split (sep : Char) : List Char → List (List Char)
  | [] => [[]]
  | c :: cs =>
    if c = sep then [] :: Split sep cs
    else
      match Split sep cs with
      | [] => [[c]]
      | t :: ts => (c :: t) :: ts

/-- `jobNameFromPackageBundleImage` (lines 150-157). -/
def jobNameFromPackageBundleImage (packageName packageBundleImage : String) :
    Except Err String :=
  let colonTokenizedImage := Split ':' packageBundleImage.data
  if colonTokenizedImage.length = 1 then
    .error (.other "image not found to be in the right format with digest")
  else
    let digest := String.mk (colonTokenizedImage.getLastD [])
    .ok ("job-" ++ packageName ++ "-" ++ digest)

/-- `ensureDynamicCacheLabel` (lines 45-56). -/
def ensureDynamicCacheLabel {σ : Type} (c : Client σ PackageManifestFields)
    (w : World σ PackageManifestFields) (packageManifest : PackageManifest) :
    Outcome σ PackageManifestFields :=
  let labels := packageManifest.Meta.Labels
  if getLabel labels DynamicCacheLabel = "True" then ⟨w, packageManifest, none⟩
  else
    let labels := setLabel labels DynamicCacheLabel "True"
    let packageManifest : PackageManifest :=
      { packageManifest with Meta := { packageManifest.Meta with Labels := labels } }
    match w.Update c packageManifest with
    | (w1, .error err) => ⟨w1, packageManifest, some err⟩
    | (w1, .ok updated) => ⟨w1, updated, none⟩

/-- The deletion loop of `Reconcile` (lines 76-83) over the entries of the
registry in iteration order. -/
def Reconcile.deletionLoop {σ : Type} (c : Client σ PackageManifestFields) :
    List (String × Cleaner σ PackageManifestFields) →
    World σ PackageManifestFields → PackageManifest → Outcome σ PackageManifestFields
  | [], w, packageManifest => ⟨w, packageManifest, none⟩
  | (finalizer, cleaner) :: rest, w, packageManifest =>
    let cleaned := (cleaner c packageManifest).run c finalizer w
    match cleaned.err with
    | some err =>
      ⟨cleaned.world, cleaned.obj,
        some (.wrap ("error occurred while cleaning up the '" ++ finalizer ++
          "' finalizer of PackageManifest") err)⟩
    | none =>
      let r := RemoveFinalizers c cleaned.world cleaned.obj [finalizer]
      match r.err with
      | some err =>
        ⟨r.world, r.obj,
          some (.wrap ("error occurred while removing the '" ++ finalizer ++
            "' finalizer from the PackageManifest") err)⟩
      | none => Reconcile.deletionLoop c rest r.world r.obj

/-- The loop over the found job's conditions (lines 135-145): it stops at the
first `Complete=True` or `Failed=True` condition and has no effect. -/
def Reconcile.conditionLoop : List JobCondition → Unit
  | [] => ()
  | condition :: rest =>
    if condition.CondType = "Complete" ∧ condition.Status = "True" then ()
    else if condition.CondType = "Failed" ∧ condition.Status = "True" then ()
    else Reconcile.conditionLoop rest

/-- The job template of `Reconcile` (lines 102-121). -/
def Reconcile.desiredJob (packageLoaderJob : String) (packageManifest : PackageManifest)
    (packageName : String) : Job :=
  { Name := packageLoaderJob
    Namespace := packageManifest.Meta.Namespace
    Containers :=
      [{ Name := "package-loader"
         Image := "quay.io/mt-sre/package-loader"
         Command := ["package-loader"]
         Args := ["--namespace", packageManifest.Meta.Namespace,
                  "--package-name", packageName] }]
    Conditions := [] }

/-- What a reconcile pass leaves behind: the world, the local variable
`packageManifest` (absent when the first `Get` failed) and the returned error;
the returned `ctrl.Result` is always the empty one. -/
structure PassResult (σ : Type) where
  world : World σ PackageManifestFields
  packageManifest : Option PackageManifest
  err : Option Err

/-- The child-job step of `Reconcile` (lines 95-147): the job name, the job
template, `Get` of the job, `Create` when it is not found, the inspection of the
conditions of a found job. -/
def Reconcile.childJob {σ : Type} (c : Client σ PackageManifestFields)
    (w : World σ PackageManifestFields) (packageManifest : PackageManifest) :
    PassResult σ :=
  let packageName := packageManifest.Meta.Name
  let packageBundleImage := packageManifest.Rest.Spec.PackageImage
  match jobNameFromPackageBundleImage packageName packageBundleImage with
  | .error err => ⟨w, some packageManifest, some err⟩
  | .ok packageLoaderJob =>
    let desiredJob := Reconcile.desiredJob packageLoaderJob packageManifest packageName
    match w.GetJob c ⟨desiredJob.Namespace, desiredJob.Name⟩ with
    | (w1, .error err) =>
      if IsNotFound err then
        match w1.Create c desiredJob with
        | (w2, .error err2) => ⟨w2, some packageManifest, some err2⟩
        | (w2, .ok _) => ⟨w2, some packageManifest, some err⟩
      else ⟨w1, some packageManifest, some err⟩
    | (w1, .ok foundJob) =>
      let _ := Reconcile.conditionLoop foundJob.Conditions
      ⟨w1, some packageManifest, none⟩

/-- `Reconcile` (lines 58-148), over the registry `FinalizersToCleaners` holds
when the pass runs; its last step is `Reconcile.childJob`. -/
def Reconcile {σ : Type} (c : Client σ PackageManifestFields)
    (registry : List (String × Cleaner σ PackageManifestFields))
    (w : World σ PackageManifestFields) (req : ObjectKey) : PassResult σ :=
  match w.Get c req with
  | (w0, .error err) => ⟨w0, none, IgnoreNotFound err⟩
  | (w0, .ok fetched) =>
    let l := ensureDynamicCacheLabel c w0 fetched
    match l.err with
    | some err =>
      ⟨l.world, some l.obj,
        some (.wrap "error occurred while ensuring the dynamic cache label" err)⟩
    | none =>
      if !DeletionTimestampIsZero l.obj.Meta then
        let d := Reconcile.deletionLoop c registry l.world l.obj
        ⟨d.world, some d.obj, d.err⟩
      else
        let e := EnsureFinalizers c l.world l.obj (packageManifestFinalizers registry)
        match e.err with
        | some err => ⟨e.world, some e.obj, some err⟩
        | none =>
          let f := EnsureCachedFinalizer c e.world e.obj
          match f.err with
          | some err => ⟨f.world, some f.obj, some err⟩
          | none => Reconcile.childJob c f.world f.obj

/-! ## Stores -/

/-- The store applies a merge patch of the finalizers: the object a successful
`Patch` returns carries the finalizer list the patch sent. -/
def Client.AppliesPatch {σ β : Type} (c : Client σ β) : Prop :=
  ∀ s o d o', (c.Patch s o d).2 = .ok o' → o'.Meta.Finalizers = d.finalizers

/-- A stateless store that accepts every write and holds nothing: `Patch`
returns the object with the patched finalizer list, `Update` and `Create` return
what they were given, every `Get` reports NotFound. -/
def acceptingClient (β : Type) : Client Unit β where
  Get := fun s key => (s, .error (.notFound key.Name))
  Update := fun s obj => (s, .ok obj)
  Patch := fun s obj patch =>
    (s, .ok { obj with Meta := { obj.Meta with Finalizers := patch.finalizers } })
  GetJob := fun s key => (s, .error (.notFound key.Name))
  Create := fun s job => (s, .ok job)

/-- An in-memory store: the manifests and the jobs it holds. -/
structure MemStore where
  manifests : List PackageManifest
  jobs : List Job
  deriving DecidableEq

/-- The stored manifest of that namespace and name. -/
def MemStore.find (s : MemStore) (ns name : String) : Option PackageManifest :=
  s.manifests.find? (fun m => m.Meta.Namespace == ns && m.Meta.Name == name)

/-- The stored job of that namespace and name. -/
def MemStore.findJob (s : MemStore) (ns name : String) : Option Job :=
  s.jobs.find? (fun j => j.Namespace == ns && j.Name == name)

/-- The store with the manifest written in place of the one of its identity. -/
def MemStore.put (s : MemStore) (m : PackageManifest) : MemStore :=
  { s with manifests := m :: s.manifests.filter (fun x =>
      !(x.Meta.Namespace == m.Meta.Namespace && x.Meta.Name == m.Meta.Name)) }

/-- A client over the in-memory store with optimistic concurrency: `Update` and
`Patch` need the stored version token and bump it, `Patch` replaces the
finalizer list only, `Create` refuses an existing job. -/
def memClient : Client MemStore PackageManifestFields where
  Get := fun s key =>
    match s.find key.Namespace key.Name with
    | some m => (s, .ok m)
    | none => (s, .error (.notFound key.Name))
  Update := fun s obj =>
    match s.find obj.Meta.Namespace obj.Meta.Name with
    | none => (s, .error (.notFound obj.Meta.Name))
    | some cur =>
      if cur.Meta.ResourceVersion = obj.Meta.ResourceVersion then
        let stored : PackageManifest :=
          { obj with Meta := { obj.Meta with
              ResourceVersion := obj.Meta.ResourceVersion ++ "u" } }
        (s.put stored, .ok stored)
      else (s, .error (.conflict obj.Meta.Name))
  Patch := fun s obj patch =>
    match s.find obj.Meta.Namespace obj.Meta.Name with
    | none => (s, .error (.notFound obj.Meta.Name))
    | some cur =>
      if cur.Meta.ResourceVersion = patch.resourceVersion then
        let stored : PackageManifest :=
          { cur with Meta := { cur.Meta with
              Finalizers := patch.finalizers
              ResourceVersion := cur.Meta.ResourceVersion ++ "p" } }
        (s.put stored, .ok stored)
      else (s, .error (.conflict obj.Meta.Name))
  GetJob := fun s key =>
    match s.findJob key.Namespace key.Name with
    | some j => (s, .ok j)
    | none => (s, .error (.notFound key.Name))
  Create := fun s job =>
    match s.findJob job.Namespace job.Name with
    | some _ => (s, .error (.other "already exists"))
    | none => ({ s with jobs := job :: s.jobs }, .ok job)

/-- The call is one on a job: `Get` of a job or `Create`. -/
def Call.isJobCall {β : Type} : Call β → Bool
  | .GetJob _ => true
  | .Create _ => true
  | _ => false

/-- The call is a `Patch`. -/
def Call.isPatch {β : Type} : Call β → Bool
  | .Patch _ _ => true
  | _ => false

/-! ## Concrete inputs -/

/-- A live manifest `foo` in namespace `ns-a` whose package targets namespace
`ns-b`, with a well-formed image reference. -/
def exampleManifest : PackageManifest :=
  ⟨⟨"foo", "ns-a", [], [], "1", none⟩,
    ⟨⟨"registry/img@sha256:abc123", "ns-b"⟩, ⟨"Pending"⟩⟩⟩

/-- The job `Reconcile` synthesizes for `exampleManifest`. -/
def exampleJob : Job :=
  ⟨"job-foo-abc123", "ns-a",
    [⟨"package-loader", "quay.io/mt-sre/package-loader", ["package-loader"],
      ["--namespace", "ns-a", "--package-name", "foo"]⟩], []⟩

/-- The live manifest `foo` guarded by the finalizers `"a"` and `"b"`. -/
def guardedManifest : PackageManifest :=
  ⟨⟨"foo", "ns-a", [], ["a", "b"], "1", none⟩,
    ⟨⟨"registry/img@sha256:abc123", "ns-b"⟩, ⟨"Pending"⟩⟩⟩

/-- The request for `exampleManifest`. -/
def exampleRequest : ObjectKey := ⟨"ns-a", "foo"⟩

/-- The storage backend marks a stored manifest for deletion: it sets the
deletion timestamp and leaves the rest. -/
def MemStore.markDeleted (s : MemStore) (ns name : String) (t : Nat) : MemStore :=
  { s with manifests := s.manifests.map (fun m =>
      if m.Meta.Namespace == ns && m.Meta.Name == name then
        { m with Meta := { m.Meta with DeletionTimestamp := some t } }
      else m) }

/-- A registry of two finalizers: the cleaner of `"a"` succeeds, the cleaner of
`"b"` returns an error. -/
def twoCleaners : List (String × Cleaner MemStore PackageManifestFields) :=
  [("a", fun _ obj => .Return obj none),
   ("b", fun _ obj => .Return obj (some (.other "cleanup failed")))]

/-- The manifest `foo`, labelled, guarded by `"a"` and `"b"`, with deletion
requested. -/
def deletingManifest : PackageManifest :=
  ⟨⟨"foo", "ns-a", [("package-operator.run/cache", "True")], ["a", "b"], "1", some 5⟩,
    ⟨⟨"registry/img@sha256:abc123", "ns-b"⟩, ⟨"Pending"⟩⟩⟩

/-- The call is a `Create`. -/
def Call.isCreate {β : Type} : Call β → Bool
  | .Create _ => true
  | _ => false

/-- The job of `exampleManifest` as it stands in a store after it has failed:
it carries the condition `Failed=True`. -/
def failedJob : Job :=
  { exampleJob with Conditions := [⟨"Failed", "True"⟩] }

/-! ## Facts about `Split` -/

theorem Split_ne_nil (sep : Char) (l : List Char) : Split sep l ≠ [] := by
  induction l with
  | nil => simp [Split]
  | cons c cs ih =>
    unfold Split
    split_ifs
    · simp
    · cases h : Split sep cs with
      | nil => exact absurd h ih
      | cons t ts => simp

theorem Split_of_not_mem (sep : Char) (l : List Char) (h : sep ∉ l) :
    Split sep l = [l] := by
  induction l with
  | nil => simp [Split]
  | cons c cs ih =>
    have hc : c ≠ sep := fun e => h (by simp [e])
    have hcs : sep ∉ cs := fun e => h (by simp [e])
    unfold Split
    rw [if_neg hc, ih hcs]

theorem Split_append_sep (sep : Char) (pre d : List Char) :
    Split sep (pre ++ sep :: d) = Split sep pre ++ Split sep d := by
  induction pre with
  | nil => simp [Split]
  | cons c cs ih =>
    by_cases hc : c = sep
    · have e1 : Split sep (c :: cs ++ sep :: d) = [] :: Split sep (cs ++ sep :: d) := by
        rw [List.cons_append, Split, if_pos hc]
      have e2 : Split sep (c :: cs) = [] :: Split sep cs := by
        rw [Split, if_pos hc]
      rw [e1, e2, ih, List.cons_append]
    · cases hs : Split sep cs with
      | nil => exact absurd hs (Split_ne_nil sep cs)
      | cons t ts =>
        have e1 : Split sep (c :: cs ++ sep :: d) = (c :: t) :: (ts ++ Split sep d) := by
          rw [List.cons_append, Split, if_neg hc, ih, hs, List.cons_append]
        have e2 : Split sep (c :: cs) = (c :: t) :: ts := by
          rw [Split, if_neg hc, hs]
        rw [e1, e2, List.cons_append]

theorem Split_length_append_sep (sep : Char) (pre d : List Char) :
    (Split sep (pre ++ sep :: d)).length = (Split sep pre).length + (Split sep d).length := by
  rw [Split_append_sep, List.length_append]

theorem Split_getLastD_append_sep (sep : Char) (pre d : List Char) (hd : sep ∉ d) :
    (Split sep (pre ++ sep :: d)).getLastD [] = d := by
  rw [Split_append_sep, Split_of_not_mem sep d hd]
  simp [List.getLastD_eq_getLast?]

theorem Split_length_pos (sep : Char) (l : List Char) : 1 ≤ (Split sep l).length := by
  have := Split_ne_nil sep l
  cases h : Split sep l with
  | nil => exact absurd h this
  | cons t ts => simp

/-- Every list containing the separator splits at its last occurrence. -/
theorem exists_last_sep (sep : Char) (l : List Char) (h : sep ∈ l) :
    ∃ pre d, l = pre ++ sep :: d ∧ sep ∉ d := by
  induction l with
  | nil => simp at h
  | cons c cs ih =>
    by_cases hcs : sep ∈ cs
    · obtain ⟨pre, d, h1, h2⟩ := ih hcs
      exact ⟨c :: pre, d, by simp [h1], h2⟩
    · have hc : sep = c := by
        rcases List.mem_cons.mp h with e | e
        · exact e
        · exact absurd e hcs
      exact ⟨[], cs, by simp [hc], hcs⟩

theorem Split_length_eq_one_iff (sep : Char) (l : List Char) :
    (Split sep l).length = 1 ↔ sep ∉ l := by
  constructor
  · intro h hm
    obtain ⟨pre, d, h1, _⟩ := exists_last_sep sep l hm
    rw [h1, Split_length_append_sep] at h
    have := Split_length_pos sep pre
    have := Split_length_pos sep d
    omega
  · intro h
    rw [Split_of_not_mem sep l h]
    rfl

/-! ## Job name synthesis -/

/-- C1: `jobNameFromPackageBundleImage n r` fails exactly when splitting `r` on
`':'` yields fewer than two tokens, which is exactly when `r` has no `':'`;
otherwise `r` is `pre ++ ":" ++ d` with no `':'` in `d`, `d` is the last token
of the split, and the result is `"job-" ++ n ++ "-" ++ d`. The two examples of
the specification evaluate as stated. -/
theorem jobNameFromPackageBundleImage_spec (n r : String) :
    ((∃ e, jobNameFromPackageBundleImage n r = .error e) ↔
        (Split ':' r.data).length < 2) ∧
    ((Split ':' r.data).length < 2 ↔ ':' ∉ r.data) ∧
    ((':' ∉ r.data ∧ ∃ e, jobNameFromPackageBundleImage n r = .error e) ∨
      (∃ pre d, r.data = pre ++ ':' :: d ∧ ':' ∉ d ∧
        (Split ':' r.data).getLast? = some d ∧
        jobNameFromPackageBundleImage n r = .ok ("job-" ++ n ++ "-" ++ String.mk d))) ∧
    jobNameFromPackageBundleImage "foo" "registry/img@sha256:abc123" = .ok "job-foo-abc123" ∧
    (∃ e, jobNameFromPackageBundleImage "foo" "registry/img" = .error e) := by
  have hpos := Split_length_pos ':' r.data
  have hone := Split_length_eq_one_iff ':' r.data
  have hlt : (Split ':' r.data).length < 2 ↔ (Split ':' r.data).length = 1 := by omega
  refine ⟨?_, ?_, ?_, by rfl, ⟨_, by rfl⟩⟩
  · rw [hlt]
    unfold jobNameFromPackageBundleImage
    by_cases h : (Split ':' r.data).length = 1 <;> simp [h]
  · rw [hlt, hone]
  · by_cases hm : ':' ∈ r.data
    · right
      obtain ⟨pre, d, h1, h2⟩ := exists_last_sep ':' r.data hm
      have hlen : (Split ':' r.data).length ≠ 1 := fun e => (hone.mp e) hm
      have hlast : (Split ':' r.data).getLastD [] = d := by
        rw [h1]; exact Split_getLastD_append_sep ':' pre d h2
      refine ⟨pre, d, h1, h2, ?_, ?_⟩
      · have hne := Split_ne_nil ':' r.data
        rw [List.getLastD_eq_getLast?] at hlast
        cases hl : (Split ':' r.data).getLast? with
        | none => exact absurd (List.getLast?_eq_none_iff.mp hl) hne
        | some x => rw [hl] at hlast; simpa using hlast
      · unfold jobNameFromPackageBundleImage
        simp only [hlen, if_false, hlast]
    · left
      refine ⟨hm, ?_⟩
      unfold jobNameFromPackageBundleImage
      simp [hone.mpr hm]

/-! ## Facts about the finalizer loops -/

theorem AddFinalizer_frame {β : Type} (o : Object β) (f : String) :
    AddFinalizer o f =
      { o with Meta := { o.Meta with Finalizers := (AddFinalizer o f).Meta.Finalizers } } := by
  unfold AddFinalizer
  split_ifs <;> rfl

theorem AddFinalizer_finalizers_of_not_mem {β : Type} (o : Object β) (f : String)
    (h : f ∉ o.Meta.Finalizers) :
    (AddFinalizer o f).Meta.Finalizers = o.Meta.Finalizers ++ [f] := by
  unfold AddFinalizer
  simp [h]

theorem ensureLoop_frame {β : Type} (fs : List String) (obj : Object β) (b : Bool) :
    (EnsureFinalizers.loop fs obj b).1 =
      { obj with Meta := { obj.Meta with
          Finalizers := (EnsureFinalizers.loop fs obj b).1.Meta.Finalizers } } := by
  induction fs generalizing obj b with
  | nil => rfl
  | cons f rest ih =>
    unfold EnsureFinalizers.loop
    split_ifs
    · exact ih obj b
    · have h1 := ih (AddFinalizer obj f) false
      have h2 := AddFinalizer_frame obj f
      rw [h1]
      rw [h2]

theorem ensureLoop_mem {β : Type} (fs : List String) (obj : Object β) (b : Bool)
    (x : String) :
    x ∈ (EnsureFinalizers.loop fs obj b).1.Meta.Finalizers ↔
      x ∈ obj.Meta.Finalizers ∨ x ∈ fs := by
  induction fs generalizing obj b with
  | nil => simp [EnsureFinalizers.loop]
  | cons f rest ih =>
    unfold EnsureFinalizers.loop
    by_cases hc : ContainsFinalizer obj f = true
    · rw [if_pos hc, ih]
      have hf : f ∈ obj.Meta.Finalizers := by simpa [ContainsFinalizer] using hc
      constructor
      · rintro (h | h)
        · exact Or.inl h
        · exact Or.inr (List.mem_cons_of_mem _ h)
      · rintro (h | h)
        · exact Or.inl h
        · rcases List.mem_cons.mp h with e | e
          · exact Or.inl (e ▸ hf)
          · exact Or.inr e
    · rw [if_neg hc, ih]
      have hf : f ∉ obj.Meta.Finalizers := by simpa [ContainsFinalizer] using hc
      rw [AddFinalizer_finalizers_of_not_mem obj f hf]
      simp only [List.mem_append, List.mem_singleton, List.mem_cons]
      tauto

theorem ensureLoop_nodup {β : Type} (fs : List String) (obj : Object β) (b : Bool)
    (h : obj.Meta.Finalizers.Nodup) :
    (EnsureFinalizers.loop fs obj b).1.Meta.Finalizers.Nodup := by
  induction fs generalizing obj b with
  | nil => simpa [EnsureFinalizers.loop] using h
  | cons f rest ih =>
    unfold EnsureFinalizers.loop
    by_cases hc : ContainsFinalizer obj f = true
    · rw [if_pos hc]
      exact ih obj b h
    · rw [if_neg hc]
      have hf : f ∉ obj.Meta.Finalizers := by simpa [ContainsFinalizer] using hc
      apply ih
      rw [AddFinalizer_finalizers_of_not_mem obj f hf]
      exact List.Nodup.append h (List.nodup_singleton f) (by simpa using hf)

theorem ensureLoop_isPrefix {β : Type} (fs : List String) (obj : Object β)
    (b : Bool) :
    obj.Meta.Finalizers <+: (EnsureFinalizers.loop fs obj b).1.Meta.Finalizers := by
  induction fs generalizing obj b with
  | nil => exact List.prefix_refl _
  | cons f rest ih =>
    unfold EnsureFinalizers.loop
    by_cases hc : ContainsFinalizer obj f = true
    · rw [if_pos hc]
      exact ih obj b
    · rw [if_neg hc]
      have hf : f ∉ obj.Meta.Finalizers := by simpa [ContainsFinalizer] using hc
      have h1 := ih (AddFinalizer obj f) false
      rw [AddFinalizer_finalizers_of_not_mem obj f hf] at h1
      exact List.IsPrefix.trans (List.prefix_append _ _) h1

theorem ensureLoop_false {β : Type} (fs : List String) (obj : Object β) :
    (EnsureFinalizers.loop fs obj false).2 = false := by
  induction fs generalizing obj with
  | nil => rfl
  | cons f rest ih =>
    unfold EnsureFinalizers.loop
    split_ifs
    · exact ih obj
    · exact ih _

theorem ensureLoop_noop {β : Type} (fs : List String) (obj : Object β) (b : Bool)
    (h : ∀ f ∈ fs, f ∈ obj.Meta.Finalizers) :
    EnsureFinalizers.loop fs obj b = (obj, b) := by
  induction fs generalizing b with
  | nil => rfl
  | cons f rest ih =>
    unfold EnsureFinalizers.loop
    have hc : ContainsFinalizer obj f = true := by
      simpa [ContainsFinalizer] using h f (List.mem_cons_self _ _)
    rw [if_pos hc]
    exact ih b (fun g hg => h g (List.mem_cons_of_mem _ hg))

theorem ensureLoop_flag_false {β : Type} (fs : List String) (obj : Object β)
    (b : Bool) (h : ∃ f ∈ fs, f ∉ obj.Meta.Finalizers) :
    (EnsureFinalizers.loop fs obj b).2 = false := by
  induction fs generalizing b with
  | nil => obtain ⟨f, hf, _⟩ := h; simp at hf
  | cons f rest ih =>
    unfold EnsureFinalizers.loop
    by_cases hc : ContainsFinalizer obj f = true
    · rw [if_pos hc]
      have hf : f ∈ obj.Meta.Finalizers := by simpa [ContainsFinalizer] using hc
      apply ih
      obtain ⟨g, hg, hgn⟩ := h
      rcases List.mem_cons.mp hg with e | e
      · exact absurd (e ▸ hf) hgn
      · exact ⟨g, e, hgn⟩
    · rw [if_neg hc]
      exact ensureLoop_false rest _

theorem removeLoop_frame {β : Type} (fs : List String) (obj : Object β) (b : Bool) :
    (RemoveFinalizers.loop fs obj b).1 =
      { obj with Meta := { obj.Meta with
          Finalizers := (RemoveFinalizers.loop fs obj b).1.Meta.Finalizers } } := by
  induction fs generalizing obj b with
  | nil => rfl
  | cons f rest ih =>
    unfold RemoveFinalizers.loop
    split_ifs
    · exact ih obj b
    · have h1 := ih (RemoveFinalizer obj f) false
      rw [h1]
      rfl

theorem removeLoop_finalizers {β : Type} (fs : List String) (obj : Object β)
    (b : Bool) :
    (RemoveFinalizers.loop fs obj b).1.Meta.Finalizers =
      obj.Meta.Finalizers.filter (fun e => !fs.contains e) := by
  induction fs generalizing obj b with
  | nil => simp [RemoveFinalizers.loop]
  | cons f rest ih =>
    unfold RemoveFinalizers.loop
    by_cases hc : ContainsFinalizer obj f = true
    · simp only [hc, Bool.not_true, Bool.false_eq_true, if_false]
      rw [ih]
      simp only [RemoveFinalizer, List.filter_filter]
      apply List.filter_congr
      intro x _
      by_cases hx : x = f <;> simp [hx]
    · simp only [hc, Bool.not_false, if_true]
      have hf : f ∉ obj.Meta.Finalizers := by simpa [ContainsFinalizer] using hc
      rw [ih]
      apply List.filter_congr
      intro x hx
      have hxf : x ≠ f := fun e => hf (e ▸ hx)
      simp [hxf]

theorem removeLoop_false {β : Type} (fs : List String) (obj : Object β) :
    (RemoveFinalizers.loop fs obj false).2 = false := by
  induction fs generalizing obj with
  | nil => rfl
  | cons f rest ih =>
    unfold RemoveFinalizers.loop
    split_ifs
    · exact ih obj
    · exact ih _

theorem removeLoop_noop {β : Type} (fs : List String) (obj : Object β) (b : Bool)
    (h : ∀ f ∈ fs, f ∉ obj.Meta.Finalizers) :
    RemoveFinalizers.loop fs obj b = (obj, b) := by
  induction fs generalizing b with
  | nil => rfl
  | cons f rest ih =>
    unfold RemoveFinalizers.loop
    have hc : ContainsFinalizer obj f = false := by
      simpa [ContainsFinalizer] using h f (List.mem_cons_self _ _)
    simp only [hc, Bool.not_false, if_true]
    exact ih b (fun g hg => h g (List.mem_cons_of_mem _ hg))

theorem removeLoop_flag_false {β : Type} (fs : List String) (obj : Object β)
    (b : Bool) (h : ∃ f ∈ fs, f ∈ obj.Meta.Finalizers) :
    (RemoveFinalizers.loop fs obj b).2 = false := by
  induction fs generalizing b with
  | nil => obtain ⟨f, hf, _⟩ := h; simp at hf
  | cons f rest ih =>
    unfold RemoveFinalizers.loop
    by_cases hc : ContainsFinalizer obj f = true
    · simp only [hc, Bool.not_true, Bool.false_eq_true, if_false]
      exact removeLoop_false rest _
    · simp only [hc, Bool.not_false, if_true]
      have hf : f ∉ obj.Meta.Finalizers := by simpa [ContainsFinalizer] using hc
      apply ih
      obtain ⟨g, hg, hgn⟩ := h
      rcases List.mem_cons.mp hg with e | e
      · exact absurd (e ▸ hgn) hf
      · exact ⟨g, e, hgn⟩

/-! ## `EnsureFinalizers` and `RemoveFinalizers` -/

theorem EnsureFinalizers_noop {σ β : Type} (c : Client σ β) (w : World σ β)
    (obj : Object β) (names : List String) (h : ∀ n ∈ names, n ∈ obj.Meta.Finalizers) :
    EnsureFinalizers c w obj names = ⟨w, obj, none⟩ := by
  unfold EnsureFinalizers
  simp [ensureLoop_noop names obj true h]

theorem EnsureFinalizers_patch {σ β : Type} (c : Client σ β) (w : World σ β)
    (obj : Object β) (names : List String) (h : ∃ n ∈ names, n ∉ obj.Meta.Finalizers) :
    ∃ fins : List String,
      (∀ x, x ∈ fins ↔ x ∈ obj.Meta.Finalizers ∨ x ∈ names) ∧
      obj.Meta.Finalizers <+: fins ∧
      (obj.Meta.Finalizers.Nodup → fins.Nodup) ∧
      EnsureFinalizers c w obj names =
        ⟨⟨(c.Patch w.store { obj with Meta := { obj.Meta with Finalizers := fins } }
              ⟨obj.Meta.ResourceVersion, fins⟩).1,
            w.trace ++ [⟨.Patch { obj with Meta := { obj.Meta with Finalizers := fins } }
              ⟨obj.Meta.ResourceVersion, fins⟩,
              errOf (c.Patch w.store { obj with Meta := { obj.Meta with Finalizers := fins } }
                ⟨obj.Meta.ResourceVersion, fins⟩).2⟩]⟩,
          (match (c.Patch w.store { obj with Meta := { obj.Meta with Finalizers := fins } }
              ⟨obj.Meta.ResourceVersion, fins⟩).2 with
            | .error _ => { obj with Meta := { obj.Meta with Finalizers := fins } }
            | .ok o => o),
          (errOf (c.Patch w.store { obj with Meta := { obj.Meta with Finalizers := fins } }
              ⟨obj.Meta.ResourceVersion, fins⟩).2).map (Err.wrap "adding finalizer")⟩ := by
  refine ⟨(EnsureFinalizers.loop names obj true).1.Meta.Finalizers,
    ensureLoop_mem names obj true, ensureLoop_isPrefix names obj true,
    ensureLoop_nodup names obj true, ?_⟩
  have hflag := ensureLoop_flag_false names obj true h
  have hframe := ensureLoop_frame names obj true
  unfold EnsureFinalizers
  simp only [hflag, Bool.false_eq_true, if_false]
  rw [← hframe]
  have hrv : (EnsureFinalizers.loop names obj true).1.Meta.ResourceVersion =
      obj.Meta.ResourceVersion := by rw [hframe]
  rw [hrv]
  unfold World.Patch
  cases hp : (c.Patch w.store (EnsureFinalizers.loop names obj true).1
    ⟨obj.Meta.ResourceVersion, (EnsureFinalizers.loop names obj true).1.Meta.Finalizers⟩).2 with
  | error e => simp [hp, errOf]
  | ok o => simp [hp, errOf]

theorem RemoveFinalizers_noop {σ β : Type} (c : Client σ β) (w : World σ β)
    (obj : Object β) (names : List String) (h : ∀ n ∈ names, n ∉ obj.Meta.Finalizers) :
    RemoveFinalizers c w obj names = ⟨w, obj, none⟩ := by
  unfold RemoveFinalizers
  simp [removeLoop_noop names obj true h]

theorem RemoveFinalizers_patch {σ β : Type} (c : Client σ β) (w : World σ β)
    (obj : Object β) (names : List String) (h : ∃ n ∈ names, n ∈ obj.Meta.Finalizers)
    (fins : List String)
    (hfins : fins = obj.Meta.Finalizers.filter (fun e => !names.contains e)) :
    RemoveFinalizers c w obj names =
      ⟨⟨(c.Patch w.store { obj with Meta := { obj.Meta with Finalizers := fins } }
            ⟨obj.Meta.ResourceVersion, fins⟩).1,
          w.trace ++ [⟨.Patch { obj with Meta := { obj.Meta with Finalizers := fins } }
            ⟨obj.Meta.ResourceVersion, fins⟩,
            errOf (c.Patch w.store { obj with Meta := { obj.Meta with Finalizers := fins } }
              ⟨obj.Meta.ResourceVersion, fins⟩).2⟩]⟩,
        (match (c.Patch w.store { obj with Meta := { obj.Meta with Finalizers := fins } }
            ⟨obj.Meta.ResourceVersion, fins⟩).2 with
          | .error _ => { obj with Meta := { obj.Meta with Finalizers := fins } }
          | .ok o => o),
        (errOf (c.Patch w.store { obj with Meta := { obj.Meta with Finalizers := fins } }
            ⟨obj.Meta.ResourceVersion, fins⟩).2).map (Err.wrap "removing finalizer")⟩ := by
  have hflag := removeLoop_flag_false names obj true h
  have hframe := removeLoop_frame names obj true
  have hfin := removeLoop_finalizers names obj true
  rw [← hfins] at hfin
  rw [hfin] at hframe
  unfold RemoveFinalizers
  simp only [hflag, Bool.false_eq_true, if_false]
  rw [hfin]
  rw [hframe]
  unfold World.Patch
  cases hp : (c.Patch w.store { obj with Meta := { obj.Meta with Finalizers := fins } }
    ⟨obj.Meta.ResourceVersion, fins⟩).2 with
  | error e => simp [hp, errOf]
  | ok o => simp [hp, errOf]

/-- C3: `EnsureFinalizers` either finds every requested name already on the
object, and then issues no call (store and trace untouched), leaves the object
as it was and returns `nil`; or some name is new, and then the trace grows by
exactly one `Patch` whose document carries the object's current
`resourceVersion` and the full updated finalizer list (the old list followed by
the new names, nothing else), and the returned error is that of this one
`Patch`, wrapped: `nil` exactly when the `Patch` succeeded. -/
theorem EnsureFinalizers_effect {σ β : Type} (c : Client σ β) (w : World σ β)
    (obj : Object β) (names : List String) :
    ((∀ n ∈ names, n ∈ obj.Meta.Finalizers) ∧
      (EnsureFinalizers c w obj names).world.store = w.store ∧
      (EnsureFinalizers c w obj names).world.trace = w.trace ∧
      (EnsureFinalizers c w obj names).obj = obj ∧
      (EnsureFinalizers c w obj names).err = none) ∨
    ((∃ n ∈ names, n ∉ obj.Meta.Finalizers) ∧
      ∃ (fins : List String) (upd : Object β) (doc : PatchDoc),
        (∀ x, x ∈ fins ↔ x ∈ obj.Meta.Finalizers ∨ x ∈ names) ∧
        obj.Meta.Finalizers <+: fins ∧
        upd = { obj with Meta := { obj.Meta with Finalizers := fins } } ∧
        doc = ⟨obj.Meta.ResourceVersion, fins⟩ ∧
        (EnsureFinalizers c w obj names).world.trace =
          w.trace ++ [⟨.Patch upd doc, errOf (c.Patch w.store upd doc).2⟩] ∧
        (EnsureFinalizers c w obj names).world.store = (c.Patch w.store upd doc).1 ∧
        (EnsureFinalizers c w obj names).err =
          (errOf (c.Patch w.store upd doc).2).map (Err.wrap "adding finalizer") ∧
        ((EnsureFinalizers c w obj names).err = none ↔
          ∃ o, (c.Patch w.store upd doc).2 = .ok o)) := by
  by_cases h : ∀ n ∈ names, n ∈ obj.Meta.Finalizers
  · left
    rw [EnsureFinalizers_noop c w obj names h]
    exact ⟨h, rfl, rfl, rfl, rfl⟩
  · right
    have h2 : ∃ n ∈ names, n ∉ obj.Meta.Finalizers := by
      by_contra hc
      exact h (fun n hn => by_contra (fun hm => hc ⟨n, hn, hm⟩))
    obtain ⟨fins, hmem, hpre, _, heq⟩ := EnsureFinalizers_patch c w obj names h2
    refine ⟨h2, fins, _, _, hmem, hpre, rfl, rfl, ?_, ?_, ?_, ?_⟩
    · rw [heq]
    · rw [heq]
    · rw [heq]
    · rw [heq]
      cases hp : (c.Patch w.store { obj with Meta := { obj.Meta with Finalizers := fins } }
        ⟨obj.Meta.ResourceVersion, fins⟩).2 with
      | error e => simp [errOf]
      | ok o => simp [errOf]

/-- C8: over a store that applies the patch it accepts, `RemoveFinalizers`
leaves the object's finalizer list equal to the previous list without the
requested names, the remaining names in order. It issues no call, leaves the
object as it was and returns `nil` when no requested name is on the object;
otherwise the trace grows by exactly one `Patch` carrying the object's
`resourceVersion` and the remaining list, and the returned error is that of this
`Patch`, wrapped: `nil` exactly when the `Patch` succeeded. -/
theorem RemoveFinalizers_effect {σ β : Type} (c : Client σ β) (w : World σ β)
    (obj : Object β) (names : List String) (hstore : c.AppliesPatch) :
    (RemoveFinalizers c w obj names).obj.Meta.Finalizers =
      obj.Meta.Finalizers.filter (fun e => !names.contains e) ∧
    (((∀ n ∈ names, n ∉ obj.Meta.Finalizers) ∧
      (RemoveFinalizers c w obj names).world.store = w.store ∧
      (RemoveFinalizers c w obj names).world.trace = w.trace ∧
      (RemoveFinalizers c w obj names).obj = obj ∧
      (RemoveFinalizers c w obj names).err = none) ∨
    ((∃ n ∈ names, n ∈ obj.Meta.Finalizers) ∧
      ∃ (upd : Object β) (doc : PatchDoc),
        upd = { obj with Meta := { obj.Meta with
          Finalizers := obj.Meta.Finalizers.filter (fun e => !names.contains e) } } ∧
        doc = ⟨obj.Meta.ResourceVersion,
          obj.Meta.Finalizers.filter (fun e => !names.contains e)⟩ ∧
        (RemoveFinalizers c w obj names).world.trace =
          w.trace ++ [⟨.Patch upd doc, errOf (c.Patch w.store upd doc).2⟩] ∧
        (RemoveFinalizers c w obj names).world.store = (c.Patch w.store upd doc).1 ∧
        (RemoveFinalizers c w obj names).err =
          (errOf (c.Patch w.store upd doc).2).map (Err.wrap "removing finalizer") ∧
        ((RemoveFinalizers c w obj names).err = none ↔
          ∃ o, (c.Patch w.store upd doc).2 = .ok o))) := by
  by_cases h : ∀ n ∈ names, n ∉ obj.Meta.Finalizers
  · rw [RemoveFinalizers_noop c w obj names h]
    refine ⟨?_, Or.inl ⟨h, rfl, rfl, rfl, rfl⟩⟩
    symm
    apply List.filter_eq_self.mpr
    intro x hx
    have : x ∉ names := fun hn => h x hn hx
    simpa using this
  · have h2 : ∃ n ∈ names, n ∈ obj.Meta.Finalizers := by
      by_contra hc
      exact h (fun n hn hm => hc ⟨n, hn, hm⟩)
    have heq := RemoveFinalizers_patch c w obj names h2 _ rfl
    refine ⟨?_, Or.inr ⟨h2, _, _, rfl, rfl, ?_, ?_, ?_, ?_⟩⟩
    · rw [heq]
      cases hp : (c.Patch w.store { obj with Meta := { obj.Meta with
          Finalizers := obj.Meta.Finalizers.filter (fun e => !names.contains e) } }
        ⟨obj.Meta.ResourceVersion,
          obj.Meta.Finalizers.filter (fun e => !names.contains e)⟩).2 with
      | error e => rfl
      | ok o => exact hstore _ _ _ _ hp
    · rw [heq]
    · rw [heq]
    · rw [heq]
    · rw [heq]
      cases hp : (c.Patch w.store { obj with Meta := { obj.Meta with
          Finalizers := obj.Meta.Finalizers.filter (fun e => !names.contains e) } }
        ⟨obj.Meta.ResourceVersion,
          obj.Meta.Finalizers.filter (fun e => !names.contains e)⟩).2 with
      | error e => simp [errOf]
      | ok o => simp [errOf]

/-- C2: on an object whose finalizer list has no duplicates, with at least one
requested name not yet on it, when the store accepts and applies the one
partial update `EnsureFinalizers` sends (the `Patch` of the object after the
loop, `upd`, with the document `doc` of its version token and finalizer list,
returns an object carrying that list): two calls of `EnsureFinalizers` in
sequence with the same names both return `nil`, the trace grows by exactly one
event, that successful `Patch`, the second call leaves world and object as the
first left them, and the resulting finalizer list holds exactly the names
already present or requested, each once. -/
theorem EnsureFinalizers_twice {σ β : Type} (c : Client σ β) (w : World σ β)
    (obj : Object β) (names : List String) (upd o' : Object β) (doc : PatchDoc)
    (hnodup : obj.Meta.Finalizers.Nodup)
    (hnew : ∃ n ∈ names, n ∉ obj.Meta.Finalizers)
    (hupd : upd = (EnsureFinalizers.loop names obj true).1)
    (hdoc : doc = ⟨upd.Meta.ResourceVersion, upd.Meta.Finalizers⟩)
    (hpatch : (c.Patch w.store upd doc).2 = .ok o')
    (happlied : o'.Meta.Finalizers = doc.finalizers) :
    (EnsureFinalizers c w obj names).err = none ∧
    (EnsureFinalizers c (EnsureFinalizers c w obj names).world
      (EnsureFinalizers c w obj names).obj names).err = none ∧
    (EnsureFinalizers c (EnsureFinalizers c w obj names).world
      (EnsureFinalizers c w obj names).obj names).world.trace =
        w.trace ++ [⟨.Patch upd doc, none⟩] ∧
    (EnsureFinalizers c (EnsureFinalizers c w obj names).world
      (EnsureFinalizers c w obj names).obj names).world.store =
        (EnsureFinalizers c w obj names).world.store ∧
    (EnsureFinalizers c (EnsureFinalizers c w obj names).world
      (EnsureFinalizers c w obj names).obj names).world.trace =
        (EnsureFinalizers c w obj names).world.trace ∧
    (EnsureFinalizers c (EnsureFinalizers c w obj names).world
      (EnsureFinalizers c w obj names).obj names).obj =
        (EnsureFinalizers c w obj names).obj ∧
    (∀ x, x ∈ (EnsureFinalizers c (EnsureFinalizers c w obj names).world
        (EnsureFinalizers c w obj names).obj names).obj.Meta.Finalizers ↔
      x ∈ obj.Meta.Finalizers ∨ x ∈ names) ∧
    (EnsureFinalizers c (EnsureFinalizers c w obj names).world
      (EnsureFinalizers c w obj names).obj names).obj.Meta.Finalizers.Nodup := by
  have hflag := ensureLoop_flag_false names obj true hnew
  have hfin : o'.Meta.Finalizers = (EnsureFinalizers.loop names obj true).1.Meta.Finalizers := by
    rw [happlied, hdoc, hupd]
  have heq : EnsureFinalizers c w obj names =
      ⟨⟨(c.Patch w.store upd doc).1, w.trace ++ [⟨.Patch upd doc, none⟩]⟩, o', none⟩ := by
    subst hupd
    subst hdoc
    unfold EnsureFinalizers
    simp only [hflag, Bool.false_eq_true, if_false]
    unfold World.Patch
    simp only [hpatch, errOf]
  have herr : (EnsureFinalizers c w obj names).err = none := by rw [heq]
  have hobj : (EnsureFinalizers c w obj names).obj = o' := by rw [heq]
  have htrace : (EnsureFinalizers c w obj names).world.trace =
      w.trace ++ [⟨.Patch upd doc, none⟩] := by rw [heq]
  have hall : ∀ n ∈ names, n ∈ (EnsureFinalizers c w obj names).obj.Meta.Finalizers := by
    intro n hn
    rw [hobj, hfin]
    exact (ensureLoop_mem names obj true n).mpr (Or.inr hn)
  rw [EnsureFinalizers_noop c _ _ names hall]
  refine ⟨herr, rfl, htrace, rfl, rfl, rfl, ?_, ?_⟩
  · intro x
    show x ∈ (EnsureFinalizers c w obj names).obj.Meta.Finalizers ↔ _
    rw [hobj, hfin]
    exact ensureLoop_mem names obj true x
  · show (EnsureFinalizers c w obj names).obj.Meta.Finalizers.Nodup
    rw [hobj, hfin]
    exact ensureLoop_nodup names obj true hnodup

theorem acceptingClient_appliesPatch (β : Type) : (acceptingClient β).AppliesPatch := by
  intro s o d o' h
  simp only [acceptingClient, Except.ok.injEq] at h
  rw [← h]

/-- Witness of C8: on the accepting store, removing `"b"` and `"x"` from an
object guarded by `"a"`, `"b"`, `"c"` leaves `"a"`, `"c"`, and removing `"x"`
alone leaves the list as it was. -/
theorem RemoveFinalizers_effect_witness :
    (acceptingClient Unit).AppliesPatch ∧
    (RemoveFinalizers (acceptingClient Unit) ⟨(), []⟩
      ⟨⟨"m", "ns", [], ["a", "b", "c"], "7", none⟩, ()⟩ ["b", "x"]).obj.Meta.Finalizers =
        ["a", "c"] ∧
    (RemoveFinalizers (acceptingClient Unit) ⟨(), []⟩
      ⟨⟨"m", "ns", [], ["a", "b", "c"], "7", none⟩, ()⟩ ["x"]).obj.Meta.Finalizers =
        ["a", "b", "c"] :=
  ⟨acceptingClient_appliesPatch Unit,
    (RemoveFinalizers_effect (acceptingClient Unit) ⟨(), []⟩
      ⟨⟨"m", "ns", [], ["a", "b", "c"], "7", none⟩, ()⟩ ["b", "x"]
      (acceptingClient_appliesPatch Unit)).1.trans (by decide),
    (RemoveFinalizers_effect (acceptingClient Unit) ⟨(), []⟩
      ⟨⟨"m", "ns", [], ["a", "b", "c"], "7", none⟩, ()⟩ ["x"]
      (acceptingClient_appliesPatch Unit)).1.trans (by decide)⟩

/-- Witness of C2: on the in-memory store with version tokens holding
`guardedManifest`, ensuring `"b"`, `"d"`, `"d"` twice: the one `Patch` sent, of
the list `"a"`, `"b"`, `"d"` at token `"1"`, is accepted, both calls return
`nil`, the trace holds that one `Patch`, and the list ends duplicate-free. -/
theorem EnsureFinalizers_twice_witness :
    guardedManifest.Meta.Finalizers.Nodup ∧
    (∃ n ∈ ["b", "d", "d"], n ∉ guardedManifest.Meta.Finalizers) ∧
    (memClient.Patch (⟨[guardedManifest], []⟩ : MemStore)
      { guardedManifest with Meta := { guardedManifest.Meta with
          Finalizers := ["a", "b", "d"] } } ⟨"1", ["a", "b", "d"]⟩).2 =
      .ok { guardedManifest with Meta := { guardedManifest.Meta with
          Finalizers := ["a", "b", "d"], ResourceVersion := "1p" } } ∧
    (EnsureFinalizers memClient
      (EnsureFinalizers memClient ⟨⟨[guardedManifest], []⟩, []⟩
        guardedManifest ["b", "d", "d"]).world
      (EnsureFinalizers memClient ⟨⟨[guardedManifest], []⟩, []⟩
        guardedManifest ["b", "d", "d"]).obj
      ["b", "d", "d"]).err = none ∧
    (EnsureFinalizers memClient
      (EnsureFinalizers memClient ⟨⟨[guardedManifest], []⟩, []⟩
        guardedManifest ["b", "d", "d"]).world
      (EnsureFinalizers memClient ⟨⟨[guardedManifest], []⟩, []⟩
        guardedManifest ["b", "d", "d"]).obj
      ["b", "d", "d"]).world.trace =
      [] ++ [⟨.Patch { guardedManifest with Meta := { guardedManifest.Meta with
          Finalizers := ["a", "b", "d"] } } ⟨"1", ["a", "b", "d"]⟩, none⟩] ∧
    (EnsureFinalizers memClient
      (EnsureFinalizers memClient ⟨⟨[guardedManifest], []⟩, []⟩
        guardedManifest ["b", "d", "d"]).world
      (EnsureFinalizers memClient ⟨⟨[guardedManifest], []⟩, []⟩
        guardedManifest ["b", "d", "d"]).obj
      ["b", "d", "d"]).obj.Meta.Finalizers.Nodup :=
  ⟨by decide, ⟨"d", by decide, by decide⟩, rfl,
    (EnsureFinalizers_twice memClient ⟨⟨[guardedManifest], []⟩, []⟩
      guardedManifest ["b", "d", "d"]
      { guardedManifest with Meta := { guardedManifest.Meta with
          Finalizers := ["a", "b", "d"] } }
      { guardedManifest with Meta := { guardedManifest.Meta with
          Finalizers := ["a", "b", "d"], ResourceVersion := "1p" } }
      ⟨"1", ["a", "b", "d"]⟩
      (by decide) ⟨"d", by decide, by decide⟩ rfl rfl rfl rfl).2.1,
    (EnsureFinalizers_twice memClient ⟨⟨[guardedManifest], []⟩, []⟩
      guardedManifest ["b", "d", "d"]
      { guardedManifest with Meta := { guardedManifest.Meta with
          Finalizers := ["a", "b", "d"] } }
      { guardedManifest with Meta := { guardedManifest.Meta with
          Finalizers := ["a", "b", "d"], ResourceVersion := "1p" } }
      ⟨"1", ["a", "b", "d"]⟩
      (by decide) ⟨"d", by decide, by decide⟩ rfl rfl rfl rfl).2.2.1,
    (EnsureFinalizers_twice memClient ⟨⟨[guardedManifest], []⟩, []⟩
      guardedManifest ["b", "d", "d"]
      { guardedManifest with Meta := { guardedManifest.Meta with
          Finalizers := ["a", "b", "d"] } }
      { guardedManifest with Meta := { guardedManifest.Meta with
          Finalizers := ["a", "b", "d"], ResourceVersion := "1p" } }
      ⟨"1", ["a", "b", "d"]⟩
      (by decide) ⟨"d", by decide, by decide⟩ rfl rfl rfl rfl).2.2.2.2.2.2.2⟩

/-! ## The cache label -/

theorem lookup_filter_ne (labels : List (String × String)) (key k : String) (h : k ≠ key) :
    List.lookup k (labels.filter (fun kv => kv.1 != key)) = List.lookup k labels := by
  induction labels with
  | nil => rfl
  | cons kv rest ih =>
    obtain ⟨a, b⟩ := kv
    by_cases ha : a = key
    · subst ha
      have hka : (k == a) = false := by simpa using h
      simp [List.filter, List.lookup, hka, ih]
    · have hne : (a != key) = true := by simpa using ha
      simp only [List.filter, hne, List.lookup]
      rw [ih]

theorem lookup_setLabel_self (labels : List (String × String)) (key value : String) :
    List.lookup key (setLabel labels key value) = some value := by
  simp [setLabel, List.lookup]

theorem lookup_setLabel_ne (labels : List (String × String)) (key value k : String)
    (h : k ≠ key) :
    List.lookup k (setLabel labels key value) = List.lookup k labels := by
  have hk : (k == key) = false := by simpa using h
  simp only [setLabel, List.lookup, hk]
  exact lookup_filter_ne labels key k h

/-- C10: `ensureDynamicCacheLabel` either finds the label
`package-operator.run/cache` already `"True"`, and then issues no call (store
and trace untouched), leaves the manifest as it was and returns `nil`; or it
does not, and then the trace grows by exactly one `Update` of the manifest in
which that label is `"True"`, every other label is bound as before and nothing
but the labels differs from the manifest passed in, and the returned error is
that `Update`'s. -/
theorem ensureDynamicCacheLabel_effect {σ : Type} (c : Client σ PackageManifestFields)
    (w : World σ PackageManifestFields) (pm : PackageManifest) :
    (getLabel pm.Meta.Labels "package-operator.run/cache" = "True" ∧
      (ensureDynamicCacheLabel c w pm).world.store = w.store ∧
      (ensureDynamicCacheLabel c w pm).world.trace = w.trace ∧
      (ensureDynamicCacheLabel c w pm).obj = pm ∧
      (ensureDynamicCacheLabel c w pm).err = none) ∨
    (getLabel pm.Meta.Labels "package-operator.run/cache" ≠ "True" ∧
      ∃ (labels : List (String × String)) (upd : PackageManifest),
        List.lookup "package-operator.run/cache" labels = some "True" ∧
        (∀ k, k ≠ "package-operator.run/cache" →
          List.lookup k labels = List.lookup k pm.Meta.Labels) ∧
        upd = { pm with Meta := { pm.Meta with Labels := labels } } ∧
        (ensureDynamicCacheLabel c w pm).world.trace =
          w.trace ++ [⟨.Update upd, errOf (c.Update w.store upd).2⟩] ∧
        (ensureDynamicCacheLabel c w pm).world.store = (c.Update w.store upd).1 ∧
        (ensureDynamicCacheLabel c w pm).err = errOf (c.Update w.store upd).2) := by
  by_cases h : getLabel pm.Meta.Labels "package-operator.run/cache" = "True"
  · left
    have h2 : getLabel pm.Meta.Labels DynamicCacheLabel = "True" := h
    have heq : ensureDynamicCacheLabel c w pm = ⟨w, pm, none⟩ := by
      unfold ensureDynamicCacheLabel
      simp only [h2, if_true]
    rw [heq]
    exact ⟨h, rfl, rfl, rfl, rfl⟩
  · right
    have h2 : ¬ getLabel pm.Meta.Labels DynamicCacheLabel = "True" := h
    refine ⟨h, setLabel pm.Meta.Labels DynamicCacheLabel "True", _,
      lookup_setLabel_self _ _ _, fun k hk => lookup_setLabel_ne _ _ _ k hk, rfl, ?_, ?_, ?_⟩
    all_goals
      unfold ensureDynamicCacheLabel
      simp only [h2, if_false]
      unfold World.Update
      cases hp : (c.Update w.store { pm with Meta := { pm.Meta with
        Labels := setLabel pm.Meta.Labels DynamicCacheLabel "True" } }).2 with
      | error e => simp [hp, errOf]
      | ok o => simp [hp, errOf]

/-! ## Traces of the helpers -/

theorem EnsureFinalizers_trace {σ β : Type} (c : Client σ β) (w : World σ β)
    (obj : Object β) (names : List String) :
    ∃ evs, (EnsureFinalizers c w obj names).world.trace = w.trace ++ evs ∧
      ∀ ev ∈ evs, ev.call.isPatch = true := by
  by_cases h : ∀ n ∈ names, n ∈ obj.Meta.Finalizers
  · rw [EnsureFinalizers_noop c w obj names h]
    exact ⟨[], by simp, by simp⟩
  · have h2 : ∃ n ∈ names, n ∉ obj.Meta.Finalizers := by
      by_contra hc
      exact h (fun n hn => by_contra (fun hm => hc ⟨n, hn, hm⟩))
    obtain ⟨fins, _, _, _, heq⟩ := EnsureFinalizers_patch c w obj names h2
    rw [heq]
    exact ⟨_, rfl, by simp [Call.isPatch]⟩

theorem RemoveFinalizers_trace {σ β : Type} (c : Client σ β) (w : World σ β)
    (obj : Object β) (names : List String) :
    ∃ evs, (RemoveFinalizers c w obj names).world.trace = w.trace ++ evs ∧
      ∀ ev ∈ evs, ev.call.isPatch = true := by
  by_cases h : ∀ n ∈ names, n ∉ obj.Meta.Finalizers
  · rw [RemoveFinalizers_noop c w obj names h]
    exact ⟨[], by simp, by simp⟩
  · have h2 : ∃ n ∈ names, n ∈ obj.Meta.Finalizers := by
      by_contra hc
      exact h (fun n hn hm => hc ⟨n, hn, hm⟩)
    rw [RemoveFinalizers_patch c w obj names h2 _ rfl]
    exact ⟨_, rfl, by simp [Call.isPatch]⟩

theorem RemoveFinalizers_obj_finalizers {σ β : Type} (c : Client σ β) (w : World σ β)
    (obj : Object β) (names : List String) (hstore : c.AppliesPatch) :
    (RemoveFinalizers c w obj names).obj.Meta.Finalizers =
      obj.Meta.Finalizers.filter (fun e => !names.contains e) := by
  by_cases h : ∀ n ∈ names, n ∉ obj.Meta.Finalizers
  · rw [RemoveFinalizers_noop c w obj names h]
    symm
    apply List.filter_eq_self.mpr
    intro x hx
    have : x ∉ names := fun hn => h x hn hx
    simpa using this
  · have h2 : ∃ n ∈ names, n ∈ obj.Meta.Finalizers := by
      by_contra hc
      exact h (fun n hn hm => hc ⟨n, hn, hm⟩)
    rw [RemoveFinalizers_patch c w obj names h2 _ rfl]
    cases hp : (c.Patch w.store { obj with Meta := { obj.Meta with
        Finalizers := obj.Meta.Finalizers.filter (fun e => !names.contains e) } }
      ⟨obj.Meta.ResourceVersion,
        obj.Meta.Finalizers.filter (fun e => !names.contains e)⟩).2 with
    | error e => rfl
    | ok o => exact hstore _ _ _ _ hp

theorem ensureDynamicCacheLabel_noop {σ : Type} (c : Client σ PackageManifestFields)
    (w : World σ PackageManifestFields) (pm : PackageManifest)
    (h : getLabel pm.Meta.Labels DynamicCacheLabel = "True") :
    ensureDynamicCacheLabel c w pm = ⟨w, pm, none⟩ := by
  unfold ensureDynamicCacheLabel
  simp only [h, if_true]

theorem ensureDynamicCacheLabel_update {σ : Type} (c : Client σ PackageManifestFields)
    (w : World σ PackageManifestFields) (pm upd : PackageManifest)
    (h : getLabel pm.Meta.Labels DynamicCacheLabel ≠ "True")
    (hupd : upd = { pm with Meta := { pm.Meta with
      Labels := setLabel pm.Meta.Labels DynamicCacheLabel "True" } }) :
    ensureDynamicCacheLabel c w pm =
      ⟨⟨(c.Update w.store upd).1, w.trace ++ [⟨.Update upd, errOf (c.Update w.store upd).2⟩]⟩,
        (match (c.Update w.store upd).2 with
          | .error _ => upd
          | .ok o => o),
        errOf (c.Update w.store upd).2⟩ := by
  subst hupd
  unfold ensureDynamicCacheLabel
  simp only [h, if_false]
  unfold World.Update
  cases hp : (c.Update w.store { pm with Meta := { pm.Meta with
    Labels := setLabel pm.Meta.Labels DynamicCacheLabel "True" } }).2 with
  | error e => simp [hp, errOf]
  | ok o => simp [hp, errOf]

theorem ensureDynamicCacheLabel_trace {σ : Type} (c : Client σ PackageManifestFields)
    (w : World σ PackageManifestFields) (pm : PackageManifest) :
    ∃ evs, (ensureDynamicCacheLabel c w pm).world.trace = w.trace ++ evs ∧
      ∀ ev ∈ evs, ev.call.isJobCall = false := by
  by_cases h : getLabel pm.Meta.Labels DynamicCacheLabel = "True"
  · rw [ensureDynamicCacheLabel_noop c w pm h]
    exact ⟨[], by simp, by simp⟩
  · rw [ensureDynamicCacheLabel_update c w pm _ h rfl]
    exact ⟨_, rfl, by simp [Call.isJobCall]⟩

theorem isJobCall_of_isPatch {β : Type} (call : Call β) (h : call.isPatch = true) :
    call.isJobCall = false := by
  cases call <;> simp_all [Call.isPatch, Call.isJobCall]

theorem cleanerRun_trace {σ β : Type} (c : Client σ β) (finalizer : String)
    (steps : CleanerSteps β) (w : World σ β) :
    ∃ evs, (steps.run c finalizer w).world.trace = w.trace ++ evs ∧
      ∀ ev ∈ evs, ∃ call, ev.call = .Cleaner finalizer call := by
  induction steps generalizing w with
  | Return obj err => exact ⟨[], by simp [CleanerSteps.run], by simp⟩
  | Get key next ih =>
    obtain ⟨evs, h1, h2⟩ := ih (c.Get w.store key).2
      ⟨(c.Get w.store key).1,
        w.trace ++ [⟨.Cleaner finalizer (.Get key), errOf (c.Get w.store key).2⟩]⟩
    refine ⟨⟨.Cleaner finalizer (.Get key), errOf (c.Get w.store key).2⟩ :: evs, ?_, ?_⟩
    · rw [CleanerSteps.run, h1]; simp
    · intro ev hev
      rcases List.mem_cons.mp hev with h | h
      · exact ⟨_, by rw [h]⟩
      · exact h2 ev h
  | Update obj next ih =>
    obtain ⟨evs, h1, h2⟩ := ih (c.Update w.store obj).2
      ⟨(c.Update w.store obj).1,
        w.trace ++ [⟨.Cleaner finalizer (.Update obj), errOf (c.Update w.store obj).2⟩]⟩
    refine ⟨⟨.Cleaner finalizer (.Update obj), errOf (c.Update w.store obj).2⟩ :: evs, ?_, ?_⟩
    · rw [CleanerSteps.run, h1]; simp
    · intro ev hev
      rcases List.mem_cons.mp hev with h | h
      · exact ⟨_, by rw [h]⟩
      · exact h2 ev h
  | Patch obj patch next ih =>
    obtain ⟨evs, h1, h2⟩ := ih (c.Patch w.store obj patch).2
      ⟨(c.Patch w.store obj patch).1,
        w.trace ++ [⟨.Cleaner finalizer (.Patch obj patch),
          errOf (c.Patch w.store obj patch).2⟩]⟩
    refine ⟨⟨.Cleaner finalizer (.Patch obj patch),
      errOf (c.Patch w.store obj patch).2⟩ :: evs, ?_, ?_⟩
    · rw [CleanerSteps.run, h1]; simp
    · intro ev hev
      rcases List.mem_cons.mp hev with h | h
      · exact ⟨_, by rw [h]⟩
      · exact h2 ev h
  | GetJob key next ih =>
    obtain ⟨evs, h1, h2⟩ := ih (c.GetJob w.store key).2
      ⟨(c.GetJob w.store key).1,
        w.trace ++ [⟨.Cleaner finalizer (.GetJob key), errOf (c.GetJob w.store key).2⟩]⟩
    refine ⟨⟨.Cleaner finalizer (.GetJob key), errOf (c.GetJob w.store key).2⟩ :: evs, ?_, ?_⟩
    · rw [CleanerSteps.run, h1]; simp
    · intro ev hev
      rcases List.mem_cons.mp hev with h | h
      · exact ⟨_, by rw [h]⟩
      · exact h2 ev h
  | Create job next ih =>
    obtain ⟨evs, h1, h2⟩ := ih (c.Create w.store job).2
      ⟨(c.Create w.store job).1,
        w.trace ++ [⟨.Cleaner finalizer (.Create job), errOf (c.Create w.store job).2⟩]⟩
    refine ⟨⟨.Cleaner finalizer (.Create job), errOf (c.Create w.store job).2⟩ :: evs, ?_, ?_⟩
    · rw [CleanerSteps.run, h1]; simp
    · intro ev hev
      rcases List.mem_cons.mp hev with h | h
      · exact ⟨_, by rw [h]⟩
      · exact h2 ev h

theorem deletionLoop_cons_cleanerErr {σ : Type} (c : Client σ PackageManifestFields)
    (finalizer : String) (cleaner : Cleaner σ PackageManifestFields)
    (rest : List (String × Cleaner σ PackageManifestFields))
    (w : World σ PackageManifestFields) (pm : PackageManifest) (e : Err)
    (h : ((cleaner c pm).run c finalizer w).err = some e) :
    Reconcile.deletionLoop c ((finalizer, cleaner) :: rest) w pm =
      ⟨((cleaner c pm).run c finalizer w).world, ((cleaner c pm).run c finalizer w).obj,
        some (.wrap ("error occurred while cleaning up the '" ++ finalizer ++
          "' finalizer of PackageManifest") e)⟩ := by
  rw [Reconcile.deletionLoop]
  simp only [h]

theorem deletionLoop_cons_removeErr {σ : Type} (c : Client σ PackageManifestFields)
    (finalizer : String) (cleaner : Cleaner σ PackageManifestFields)
    (rest : List (String × Cleaner σ PackageManifestFields))
    (w : World σ PackageManifestFields) (pm : PackageManifest) (e : Err)
    (h : ((cleaner c pm).run c finalizer w).err = none)
    (hr : (RemoveFinalizers c ((cleaner c pm).run c finalizer w).world
      ((cleaner c pm).run c finalizer w).obj [finalizer]).err = some e) :
    Reconcile.deletionLoop c ((finalizer, cleaner) :: rest) w pm =
      ⟨(RemoveFinalizers c ((cleaner c pm).run c finalizer w).world
          ((cleaner c pm).run c finalizer w).obj [finalizer]).world,
        (RemoveFinalizers c ((cleaner c pm).run c finalizer w).world
          ((cleaner c pm).run c finalizer w).obj [finalizer]).obj,
        some (.wrap ("error occurred while removing the '" ++ finalizer ++
          "' finalizer from the PackageManifest") e)⟩ := by
  rw [Reconcile.deletionLoop]
  simp only [h, hr]

theorem deletionLoop_cons_ok {σ : Type} (c : Client σ PackageManifestFields)
    (finalizer : String) (cleaner : Cleaner σ PackageManifestFields)
    (rest : List (String × Cleaner σ PackageManifestFields))
    (w : World σ PackageManifestFields) (pm : PackageManifest)
    (h : ((cleaner c pm).run c finalizer w).err = none)
    (hr : (RemoveFinalizers c ((cleaner c pm).run c finalizer w).world
      ((cleaner c pm).run c finalizer w).obj [finalizer]).err = none) :
    Reconcile.deletionLoop c ((finalizer, cleaner) :: rest) w pm =
      Reconcile.deletionLoop c rest
        (RemoveFinalizers c ((cleaner c pm).run c finalizer w).world
          ((cleaner c pm).run c finalizer w).obj [finalizer]).world
        (RemoveFinalizers c ((cleaner c pm).run c finalizer w).world
          ((cleaner c pm).run c finalizer w).obj [finalizer]).obj := by
  rw [Reconcile.deletionLoop]
  simp only [h, hr]

theorem isJobCall_of_cleaner {β : Type} (ev : Event β) (finalizer : String)
    (h : ∃ call, ev.call = .Cleaner finalizer call) : ev.call.isJobCall = false := by
  obtain ⟨call, hc⟩ := h
  rw [hc]
  rfl

theorem deletionLoop_trace {σ : Type} (c : Client σ PackageManifestFields)
    (reg : List (String × Cleaner σ PackageManifestFields))
    (w : World σ PackageManifestFields) (pm : PackageManifest) :
    ∃ evs, (Reconcile.deletionLoop c reg w pm).world.trace = w.trace ++ evs ∧
      ∀ ev ∈ evs, ev.call.isJobCall = false := by
  induction reg generalizing w pm with
  | nil => exact ⟨[], by simp [Reconcile.deletionLoop], by simp⟩
  | cons entry rest ih =>
    obtain ⟨finalizer, cleaner⟩ := entry
    obtain ⟨evs0, ht0, hp0⟩ := cleanerRun_trace c finalizer (cleaner c pm) w
    have hj0 : ∀ ev ∈ evs0, ev.call.isJobCall = false :=
      fun ev hev => isJobCall_of_cleaner ev finalizer (hp0 ev hev)
    cases hcl : ((cleaner c pm).run c finalizer w).err with
    | some err =>
      rw [deletionLoop_cons_cleanerErr c finalizer cleaner rest w pm err hcl]
      exact ⟨evs0, ht0, hj0⟩
    | none =>
      obtain ⟨evs1, ht1, hp1⟩ := RemoveFinalizers_trace c
        ((cleaner c pm).run c finalizer w).world ((cleaner c pm).run c finalizer w).obj
        [finalizer]
      have hj1 : ∀ ev ∈ evs1, ev.call.isJobCall = false :=
        fun ev hev => isJobCall_of_isPatch _ (hp1 ev hev)
      cases herr : (RemoveFinalizers c ((cleaner c pm).run c finalizer w).world
          ((cleaner c pm).run c finalizer w).obj [finalizer]).err with
      | some err =>
        rw [deletionLoop_cons_removeErr c finalizer cleaner rest w pm err hcl herr]
        refine ⟨evs0 ++ evs1, ?_, ?_⟩
        · show (RemoveFinalizers c ((cleaner c pm).run c finalizer w).world
            ((cleaner c pm).run c finalizer w).obj [finalizer]).world.trace = _
          rw [ht1, ht0, List.append_assoc]
        · intro ev hev
          rcases List.mem_append.mp hev with h | h
          · exact hj0 ev h
          · exact hj1 ev h
      | none =>
        rw [deletionLoop_cons_ok c finalizer cleaner rest w pm hcl herr]
        obtain ⟨evs2, ht2, hp2⟩ := ih
          (RemoveFinalizers c ((cleaner c pm).run c finalizer w).world
            ((cleaner c pm).run c finalizer w).obj [finalizer]).world
          (RemoveFinalizers c ((cleaner c pm).run c finalizer w).world
            ((cleaner c pm).run c finalizer w).obj [finalizer]).obj
        refine ⟨evs0 ++ evs1 ++ evs2, ?_, ?_⟩
        · rw [ht2, ht1, ht0]
          simp only [List.append_assoc]
        · intro ev hev
          rcases List.mem_append.mp hev with h | h
          · rcases List.mem_append.mp h with h' | h'
            · exact hj0 ev h'
            · exact hj1 ev h'
          · exact hp2 ev h

/-! ## Traces of `Reconcile` -/

theorem childJob_packageManifest {σ : Type} (c : Client σ PackageManifestFields)
    (w : World σ PackageManifestFields) (pm : PackageManifest) :
    (Reconcile.childJob c w pm).packageManifest = some pm := by
  unfold Reconcile.childJob
  simp only
  cases jobNameFromPackageBundleImage pm.Meta.Name pm.Rest.Spec.PackageImage with
  | error err => rfl
  | ok name =>
    simp only [World.GetJob]
    cases (c.GetJob w.store ⟨(Reconcile.desiredJob name pm pm.Meta.Name).Namespace,
      (Reconcile.desiredJob name pm pm.Meta.Name).Name⟩).2 with
    | ok found => rfl
    | error err =>
      simp only
      split_ifs
      · simp only [World.Create]
        split <;> simp_all
      · rfl

theorem childJob_trace {σ : Type} (c : Client σ PackageManifestFields)
    (w : World σ PackageManifestFields) (pm : PackageManifest) :
    ∃ evs, (Reconcile.childJob c w pm).world.trace = w.trace ++ evs ∧
      (∀ ev ∈ evs, ev.call.isJobCall = true) ∧
      ∀ j e, (⟨.Create j, e⟩ : Event PackageManifestFields) ∈ evs →
        ∃ name err,
          jobNameFromPackageBundleImage pm.Meta.Name pm.Rest.Spec.PackageImage = .ok name ∧
          j = Reconcile.desiredJob name pm pm.Meta.Name ∧
          IsNotFound err = true ∧
          (⟨.GetJob ⟨j.Namespace, j.Name⟩, some err⟩ : Event PackageManifestFields) ∈ evs := by
  unfold Reconcile.childJob
  simp only
  cases hn : jobNameFromPackageBundleImage pm.Meta.Name pm.Rest.Spec.PackageImage with
  | error err => exact ⟨[], by simp, by simp, by simp⟩
  | ok name =>
    simp only [World.GetJob]
    cases hg : (c.GetJob w.store ⟨(Reconcile.desiredJob name pm pm.Meta.Name).Namespace,
      (Reconcile.desiredJob name pm pm.Meta.Name).Name⟩).2 with
    | ok found =>
      refine ⟨_, rfl, by simp [Call.isJobCall], ?_⟩
      intro j e h
      simp at h
    | error err =>
      simp only
      by_cases hnf : IsNotFound err = true
      · simp only [hnf, if_true, World.Create]
        cases hc : (c.Create (c.GetJob w.store
            ⟨(Reconcile.desiredJob name pm pm.Meta.Name).Namespace,
              (Reconcile.desiredJob name pm pm.Meta.Name).Name⟩).1
            (Reconcile.desiredJob name pm pm.Meta.Name)).2 with
        | error e2 =>
          refine ⟨[⟨.GetJob ⟨(Reconcile.desiredJob name pm pm.Meta.Name).Namespace,
              (Reconcile.desiredJob name pm pm.Meta.Name).Name⟩, some err⟩,
            ⟨.Create (Reconcile.desiredJob name pm pm.Meta.Name), some e2⟩], ?_, ?_, ?_⟩
          · simp [errOf]
          · simp [Call.isJobCall]
          · intro j e h
            simp at h
            obtain ⟨hj, _⟩ := h
            subst hj
            exact ⟨name, err, rfl, rfl, hnf, by simp⟩
        | ok created =>
          refine ⟨[⟨.GetJob ⟨(Reconcile.desiredJob name pm pm.Meta.Name).Namespace,
              (Reconcile.desiredJob name pm pm.Meta.Name).Name⟩, some err⟩,
            ⟨.Create (Reconcile.desiredJob name pm pm.Meta.Name), none⟩], ?_, ?_, ?_⟩
          · simp [errOf]
          · simp [Call.isJobCall]
          · intro j e h
            simp at h
            obtain ⟨hj, _⟩ := h
            subst hj
            exact ⟨name, err, rfl, rfl, hnf, by simp⟩
      · simp only [hnf, if_false]
        refine ⟨_, rfl, by simp [Call.isJobCall], ?_⟩
        intro j e h
        simp at h

theorem not_create_of_not_jobCall {β : Type} (evs : List (Event β))
    (h : ∀ ev ∈ evs, ev.call.isJobCall = false) (j : Job) (e : Option Err) :
    (⟨.Create j, e⟩ : Event β) ∉ evs := by
  intro hm
  have := h _ hm
  simp [Call.isJobCall] at this

theorem Reconcile_trace {σ : Type} (c : Client σ PackageManifestFields)
    (reg : List (String × Cleaner σ PackageManifestFields))
    (w : World σ PackageManifestFields) (req : ObjectKey) :
    ∃ evs, (Reconcile c reg w req).world.trace = w.trace ++ evs ∧
      ∀ j e, (⟨.Create j, e⟩ : Event PackageManifestFields) ∈ evs →
        ∃ pm name err,
          (Reconcile c reg w req).packageManifest = some pm ∧
          jobNameFromPackageBundleImage pm.Meta.Name pm.Rest.Spec.PackageImage = .ok name ∧
          j = Reconcile.desiredJob name pm pm.Meta.Name ∧
          IsNotFound err = true ∧
          (⟨.GetJob ⟨j.Namespace, j.Name⟩, some err⟩ : Event PackageManifestFields) ∈ evs := by
  unfold Reconcile
  simp only [World.Get]
  cases hg : (c.Get w.store req).2 with
  | error err =>
    refine ⟨_, rfl, ?_⟩
    intro j e h
    simp at h
  | ok fetched =>
    simp only
    obtain ⟨evL, htL, hL⟩ := ensureDynamicCacheLabel_trace c
      ⟨(c.Get w.store req).1, w.trace ++ [⟨.Get req, errOf (Except.ok fetched)⟩]⟩ fetched
    simp only at htL
    cases hle : (ensureDynamicCacheLabel c
      ⟨(c.Get w.store req).1, w.trace ++ [⟨.Get req, errOf (Except.ok fetched)⟩]⟩ fetched).err with
    | some err =>
      simp only
      refine ⟨[⟨.Get req, errOf (Except.ok fetched)⟩] ++ evL, ?_, ?_⟩
      · rw [htL, List.append_assoc]
      · intro j e h
        exfalso
        rcases List.mem_append.mp h with h1 | h1
        · simp at h1
        · exact not_create_of_not_jobCall evL hL j e h1
    | none =>
      simp only
      split_ifs with hdel
      · obtain ⟨evD, htD, hD⟩ := deletionLoop_trace c reg
          (ensureDynamicCacheLabel c ⟨(c.Get w.store req).1,
            w.trace ++ [⟨.Get req, errOf (Except.ok fetched)⟩]⟩ fetched).world
          (ensureDynamicCacheLabel c ⟨(c.Get w.store req).1,
            w.trace ++ [⟨.Get req, errOf (Except.ok fetched)⟩]⟩ fetched).obj
        refine ⟨[⟨.Get req, errOf (Except.ok fetched)⟩] ++ evL ++ evD, ?_, ?_⟩
        · simp only
          rw [htD, htL]
          simp only [List.append_assoc]
        · intro j e h
          exfalso
          rcases List.mem_append.mp h with h1 | h1
          · rcases List.mem_append.mp h1 with h2 | h2
            · simp at h2
            · exact not_create_of_not_jobCall evL hL j e h2
          · exact not_create_of_not_jobCall evD hD j e h1
      · obtain ⟨evE, htE, hE⟩ := EnsureFinalizers_trace c
          (ensureDynamicCacheLabel c ⟨(c.Get w.store req).1,
            w.trace ++ [⟨.Get req, errOf (Except.ok fetched)⟩]⟩ fetched).world
          (ensureDynamicCacheLabel c ⟨(c.Get w.store req).1,
            w.trace ++ [⟨.Get req, errOf (Except.ok fetched)⟩]⟩ fetched).obj
          (packageManifestFinalizers reg)
        have hpre1 : ∀ j e, (⟨.Create j, e⟩ : Event PackageManifestFields) ∉
            [⟨.Get req, errOf (Except.ok fetched)⟩] ++ evL ++ evE := by
          intro j e h
          rcases List.mem_append.mp h with h1 | h1
          · rcases List.mem_append.mp h1 with h2 | h2
            · simp at h2
            · exact not_create_of_not_jobCall evL hL j e h2
          · exact not_create_of_not_jobCall evE
              (fun ev hev => isJobCall_of_isPatch _ (hE ev hev)) j e h1
        cases hee : (EnsureFinalizers c
          (ensureDynamicCacheLabel c ⟨(c.Get w.store req).1,
            w.trace ++ [⟨.Get req, errOf (Except.ok fetched)⟩]⟩ fetched).world
          (ensureDynamicCacheLabel c ⟨(c.Get w.store req).1,
            w.trace ++ [⟨.Get req, errOf (Except.ok fetched)⟩]⟩ fetched).obj
          (packageManifestFinalizers reg)).err with
        | some err =>
          simp only
          refine ⟨[⟨.Get req, errOf (Except.ok fetched)⟩] ++ evL ++ evE, ?_, ?_⟩
          · rw [htE, htL]
            simp only [List.append_assoc]
          · intro j e h
            exact absurd h (hpre1 j e)
        | none =>
          simp only
          obtain ⟨evF, htF, hF⟩ := EnsureFinalizers_trace c
            (EnsureFinalizers c
              (ensureDynamicCacheLabel c ⟨(c.Get w.store req).1,
                w.trace ++ [⟨.Get req, errOf (Except.ok fetched)⟩]⟩ fetched).world
              (ensureDynamicCacheLabel c ⟨(c.Get w.store req).1,
                w.trace ++ [⟨.Get req, errOf (Except.ok fetched)⟩]⟩ fetched).obj
              (packageManifestFinalizers reg)).world
            (EnsureFinalizers c
              (ensureDynamicCacheLabel c ⟨(c.Get w.store req).1,
                w.trace ++ [⟨.Get req, errOf (Except.ok fetched)⟩]⟩ fetched).world
              (ensureDynamicCacheLabel c ⟨(c.Get w.store req).1,
                w.trace ++ [⟨.Get req, errOf (Except.ok fetched)⟩]⟩ fetched).obj
              (packageManifestFinalizers reg)).obj [CachedFinalizer]
          have hpre2 : ∀ j e, (⟨.Create j, e⟩ : Event PackageManifestFields) ∉
              [⟨.Get req, errOf (Except.ok fetched)⟩] ++ evL ++ evE ++ evF := by
            intro j e h
            rcases List.mem_append.mp h with h1 | h1
            · exact hpre1 j e h1
            · exact not_create_of_not_jobCall evF
                (fun ev hev => isJobCall_of_isPatch _ (hF ev hev)) j e h1
          unfold EnsureCachedFinalizer
          cases hfe : (EnsureFinalizers c
            (EnsureFinalizers c
              (ensureDynamicCacheLabel c ⟨(c.Get w.store req).1,
                w.trace ++ [⟨.Get req, errOf (Except.ok fetched)⟩]⟩ fetched).world
              (ensureDynamicCacheLabel c ⟨(c.Get w.store req).1,
                w.trace ++ [⟨.Get req, errOf (Except.ok fetched)⟩]⟩ fetched).obj
              (packageManifestFinalizers reg)).world
            (EnsureFinalizers c
              (ensureDynamicCacheLabel c ⟨(c.Get w.store req).1,
                w.trace ++ [⟨.Get req, errOf (Except.ok fetched)⟩]⟩ fetched).world
              (ensureDynamicCacheLabel c ⟨(c.Get w.store req).1,
                w.trace ++ [⟨.Get req, errOf (Except.ok fetched)⟩]⟩ fetched).obj
              (packageManifestFinalizers reg)).obj [CachedFinalizer]).err with
          | some err =>
            simp only
            refine ⟨[⟨.Get req, errOf (Except.ok fetched)⟩] ++ evL ++ evE ++ evF, ?_, ?_⟩
            · rw [htF, htE, htL]
              simp only [List.append_assoc]
            · intro j e h
              exact absurd h (hpre2 j e)
          | none =>
            simp only
            obtain ⟨evJ, htJ, _, hJ⟩ := childJob_trace c
              (EnsureFinalizers c
                (EnsureFinalizers c
                  (ensureDynamicCacheLabel c ⟨(c.Get w.store req).1,
                    w.trace ++ [⟨.Get req, errOf (Except.ok fetched)⟩]⟩ fetched).world
                  (ensureDynamicCacheLabel c ⟨(c.Get w.store req).1,
                    w.trace ++ [⟨.Get req, errOf (Except.ok fetched)⟩]⟩ fetched).obj
                  (packageManifestFinalizers reg)).world
                (EnsureFinalizers c
                  (ensureDynamicCacheLabel c ⟨(c.Get w.store req).1,
                    w.trace ++ [⟨.Get req, errOf (Except.ok fetched)⟩]⟩ fetched).world
                  (ensureDynamicCacheLabel c ⟨(c.Get w.store req).1,
                    w.trace ++ [⟨.Get req, errOf (Except.ok fetched)⟩]⟩ fetched).obj
                  (packageManifestFinalizers reg)).obj [CachedFinalizer]).world
              (EnsureFinalizers c
                (EnsureFinalizers c
                  (ensureDynamicCacheLabel c ⟨(c.Get w.store req).1,
                    w.trace ++ [⟨.Get req, errOf (Except.ok fetched)⟩]⟩ fetched).world
                  (ensureDynamicCacheLabel c ⟨(c.Get w.store req).1,
                    w.trace ++ [⟨.Get req, errOf (Except.ok fetched)⟩]⟩ fetched).obj
                  (packageManifestFinalizers reg)).world
                (EnsureFinalizers c
                  (ensureDynamicCacheLabel c ⟨(c.Get w.store req).1,
                    w.trace ++ [⟨.Get req, errOf (Except.ok fetched)⟩]⟩ fetched).world
                  (ensureDynamicCacheLabel c ⟨(c.Get w.store req).1,
                    w.trace ++ [⟨.Get req, errOf (Except.ok fetched)⟩]⟩ fetched).obj
                  (packageManifestFinalizers reg)).obj [CachedFinalizer]).obj
            refine ⟨[⟨.Get req, errOf (Except.ok fetched)⟩] ++ evL ++ evE ++ evF ++ evJ, ?_, ?_⟩
            · rw [htJ, htF, htE, htL]
              simp only [List.append_assoc]
            · intro j e h
              rcases List.mem_append.mp h with h1 | h1
              · exact absurd h1 (hpre2 j e)
              · obtain ⟨name, err, h2, h3, h4, h5⟩ := hJ j e h1
                exact ⟨_, name, err, childJob_packageManifest _ _ _, h2, h3, h4,
                  List.mem_append.mpr (Or.inr h5)⟩

/-! ## The deletion loop -/

theorem deletionLoop_append {σ : Type} (c : Client σ PackageManifestFields)
    (pre rest : List (String × Cleaner σ PackageManifestFields))
    (w : World σ PackageManifestFields) (pm : PackageManifest)
    (h : (Reconcile.deletionLoop c pre w pm).err = none) :
    Reconcile.deletionLoop c (pre ++ rest) w pm =
      Reconcile.deletionLoop c rest (Reconcile.deletionLoop c pre w pm).world
        (Reconcile.deletionLoop c pre w pm).obj := by
  induction pre generalizing w pm with
  | nil => rfl
  | cons entry pre ih =>
    obtain ⟨finalizer, cleaner⟩ := entry
    rw [List.cons_append]
    cases hcl : ((cleaner c pm).run c finalizer w).err with
    | some err =>
      rw [deletionLoop_cons_cleanerErr c finalizer cleaner pre w pm err hcl] at h
      simp at h
    | none =>
      cases herr : (RemoveFinalizers c ((cleaner c pm).run c finalizer w).world
          ((cleaner c pm).run c finalizer w).obj [finalizer]).err with
      | some err =>
        rw [deletionLoop_cons_removeErr c finalizer cleaner pre w pm err hcl herr] at h
        simp at h
      | none =>
        rw [deletionLoop_cons_ok c finalizer cleaner pre w pm hcl herr] at h
        rw [deletionLoop_cons_ok c finalizer cleaner (pre ++ rest) w pm hcl herr,
          deletionLoop_cons_ok c finalizer cleaner pre w pm hcl herr]
        exact ih _ _ h

theorem deletionLoop_append_err {σ : Type} (c : Client σ PackageManifestFields)
    (pre rest : List (String × Cleaner σ PackageManifestFields))
    (w : World σ PackageManifestFields) (pm : PackageManifest)
    (h : (Reconcile.deletionLoop c pre w pm).err ≠ none) :
    Reconcile.deletionLoop c (pre ++ rest) w pm = Reconcile.deletionLoop c pre w pm := by
  induction pre generalizing w pm with
  | nil => exact absurd rfl h
  | cons entry pre ih =>
    obtain ⟨finalizer, cleaner⟩ := entry
    rw [List.cons_append]
    cases hcl : ((cleaner c pm).run c finalizer w).err with
    | some err =>
      rw [deletionLoop_cons_cleanerErr c finalizer cleaner (pre ++ rest) w pm err hcl,
        deletionLoop_cons_cleanerErr c finalizer cleaner pre w pm err hcl]
    | none =>
      cases herr : (RemoveFinalizers c ((cleaner c pm).run c finalizer w).world
          ((cleaner c pm).run c finalizer w).obj [finalizer]).err with
      | some err =>
        rw [deletionLoop_cons_removeErr c finalizer cleaner (pre ++ rest) w pm err hcl herr,
          deletionLoop_cons_removeErr c finalizer cleaner pre w pm err hcl herr]
      | none =>
        rw [deletionLoop_cons_ok c finalizer cleaner pre w pm hcl herr] at h
        rw [deletionLoop_cons_ok c finalizer cleaner (pre ++ rest) w pm hcl herr,
          deletionLoop_cons_ok c finalizer cleaner pre w pm hcl herr]
        exact ih _ _ h

theorem deletionLoop_prefix_ok {σ : Type} (c : Client σ PackageManifestFields)
    (pre rest : List (String × Cleaner σ PackageManifestFields))
    (w : World σ PackageManifestFields) (pm : PackageManifest)
    (h : (Reconcile.deletionLoop c (pre ++ rest) w pm).err = none) :
    (Reconcile.deletionLoop c pre w pm).err = none := by
  by_contra hc
  rw [deletionLoop_append_err c pre rest w pm hc] at h
  exact hc h

theorem outcome_eq_of_err_none {σ β : Type} (r : Outcome σ β) (h : r.err = none) :
    (⟨r.world, r.obj, none⟩ : Outcome σ β) = r := by
  cases r
  simp_all

theorem filter_not_contains_singleton (l : List String) (g : String) :
    l.filter (fun e => !([g].contains e)) = l.filter (fun x => x != g) := by
  apply List.filter_congr
  intro x _
  by_cases h : x = g <;> simp [h]

theorem Reconcile_deletion {σ : Type} (c : Client σ PackageManifestFields)
    (reg : List (String × Cleaner σ PackageManifestFields))
    (w w0 : World σ PackageManifestFields) (req : ObjectKey) (fetched : PackageManifest)
    (hget : w.Get c req = (w0, .ok fetched))
    (hlabel : (ensureDynamicCacheLabel c w0 fetched).err = none)
    (hdel : DeletionTimestampIsZero (ensureDynamicCacheLabel c w0 fetched).obj.Meta = false) :
    Reconcile c reg w req =
      ⟨(Reconcile.deletionLoop c reg (ensureDynamicCacheLabel c w0 fetched).world
          (ensureDynamicCacheLabel c w0 fetched).obj).world,
        some (Reconcile.deletionLoop c reg (ensureDynamicCacheLabel c w0 fetched).world
          (ensureDynamicCacheLabel c w0 fetched).obj).obj,
        (Reconcile.deletionLoop c reg (ensureDynamicCacheLabel c w0 fetched).world
          (ensureDynamicCacheLabel c w0 fetched).obj).err⟩ := by
  unfold Reconcile
  rw [hget]
  simp only [hlabel, hdel, Bool.not_false, if_true]

/-! ## Passes of `Reconcile` -/

/-- C6 (evaluation of the code): for the live manifest `foo` with a
well-formed image reference, on a store that holds no job, `Get` of the job
reports NotFound and the following `Create` succeeds (the job is in the store
afterwards), yet the pass returns the NotFound error of `Get`, not `nil`. -/
theorem Reconcile_returns_notFound_after_create :
    (Reconcile memClient (FinalizersToCleaners MemStore PackageManifestFields)
      ⟨⟨[exampleManifest], []⟩, []⟩ exampleRequest).err =
        some (.notFound "job-foo-abc123") ∧
    (Reconcile memClient (FinalizersToCleaners MemStore PackageManifestFields)
      ⟨⟨[exampleManifest], []⟩, []⟩ exampleRequest).world.trace.drop 4 =
        [⟨.GetJob ⟨"ns-a", "job-foo-abc123"⟩, some (.notFound "job-foo-abc123")⟩,
         ⟨.Create exampleJob, none⟩] ∧
    (Reconcile memClient (FinalizersToCleaners MemStore PackageManifestFields)
      ⟨⟨[exampleManifest], []⟩, []⟩ exampleRequest).world.store.jobs = [exampleJob] := by
  decide

/-- C5 (evaluation of the code): the live pass on manifest `foo` leaves
it guarded by the object-deployment finalizer and the cached finalizer; once
deletion is requested, a deletion pass in which the cleaner and every store
update succeed returns `nil` and leaves the cached finalizer on the manifest,
in the store and in memory, and so does a further deletion pass. -/
theorem Reconcile_deletion_leaves_cached_finalizer :
    ((Reconcile memClient (FinalizersToCleaners MemStore PackageManifestFields)
      ⟨⟨[exampleManifest], []⟩, []⟩ exampleRequest).world.store.find "ns-a" "foo").map
        (fun m => m.Meta.Finalizers) =
      some ["package-operator.run/package-manifest/object-deployment",
        "package-operator.run/cached"] ∧
    (Reconcile memClient (FinalizersToCleaners MemStore PackageManifestFields)
      ⟨((Reconcile memClient (FinalizersToCleaners MemStore PackageManifestFields)
        ⟨⟨[exampleManifest], []⟩, []⟩ exampleRequest).world.store.markDeleted
          "ns-a" "foo" 5), []⟩ exampleRequest).err = none ∧
    ((Reconcile memClient (FinalizersToCleaners MemStore PackageManifestFields)
      ⟨((Reconcile memClient (FinalizersToCleaners MemStore PackageManifestFields)
        ⟨⟨[exampleManifest], []⟩, []⟩ exampleRequest).world.store.markDeleted
          "ns-a" "foo" 5), []⟩ exampleRequest).world.store.find "ns-a" "foo").map
        (fun m => m.Meta.Finalizers) = some ["package-operator.run/cached"] ∧
    (Reconcile memClient (FinalizersToCleaners MemStore PackageManifestFields)
      ⟨((Reconcile memClient (FinalizersToCleaners MemStore PackageManifestFields)
        ⟨⟨[exampleManifest], []⟩, []⟩ exampleRequest).world.store.markDeleted
          "ns-a" "foo" 5), []⟩ exampleRequest).packageManifest.map
        (fun m => m.Meta.Finalizers) = some ["package-operator.run/cached"] ∧
    ((Reconcile memClient (FinalizersToCleaners MemStore PackageManifestFields)
      ⟨(Reconcile memClient (FinalizersToCleaners MemStore PackageManifestFields)
        ⟨((Reconcile memClient (FinalizersToCleaners MemStore PackageManifestFields)
          ⟨⟨[exampleManifest], []⟩, []⟩ exampleRequest).world.store.markDeleted
            "ns-a" "foo" 5), []⟩ exampleRequest).world.store, []⟩
      exampleRequest).world.store.find "ns-a" "foo").map
        (fun m => m.Meta.Finalizers) = some ["package-operator.run/cached"] := by
  decide

/-- C4 (counterexample): with a registry of two cleaners of which the first
succeeds and the second returns an error, the deletion pass on a manifest
guarded by `"a"` and `"b"` returns an error, yet one `Patch` has been issued and
the finalizer `"a"` is gone, in memory and in the store: the finalizer set is
not unchanged. -/
theorem Reconcile_deletion_error_after_removal :
    (Reconcile memClient twoCleaners ⟨⟨[deletingManifest], []⟩, []⟩ exampleRequest).err =
      some (.wrap "error occurred while cleaning up the 'b' finalizer of PackageManifest"
        (.other "cleanup failed")) ∧
    deletingManifest.Meta.Finalizers = ["a", "b"] ∧
    (Reconcile memClient twoCleaners ⟨⟨[deletingManifest], []⟩, []⟩
      exampleRequest).packageManifest.map (fun m => m.Meta.Finalizers) = some ["b"] ∧
    ((Reconcile memClient twoCleaners ⟨⟨[deletingManifest], []⟩, []⟩
      exampleRequest).world.store.find "ns-a" "foo").map (fun m => m.Meta.Finalizers) =
        some ["b"] ∧
    (Reconcile memClient twoCleaners ⟨⟨[deletingManifest], []⟩, []⟩
      exampleRequest).world.trace.map (fun ev => (ev.call.isPatch, ev.err)) =
        [(false, none), (true, none)] := by
  decide

/-- C4 (amended): in a deletion pass of `Reconcile` over a registry
`pre ++ (f, cl) :: post` in which the loop over `pre` succeeds and the cleaner
`cl` of `f` returns the error `e`: the pass returns `e` wrapped as the cleanup
error of `f`, with store, trace and manifest as `cl` left them, so after the
loop over `pre` the only calls are the ones `cl` itself issued, and neither a
removal for `f` nor anything for `post` follows. Every entry `(g, clg)` of
`pre` was completed before: its cleaner returned `nil`, then
`RemoveFinalizers` for `g` alone returned `nil`, and, when `g` was on the
manifest, issued exactly one successful `Patch` sending the finalizer list
without `g` (on a store applying patches `g` is then gone from the manifest),
all of it part of the trace of the pass. When `pre` is empty, the loop over it
has issued no removal and changed nothing. -/
theorem Reconcile_deletion_cleaner_error {σ : Type} (c : Client σ PackageManifestFields)
    (pre post : List (String × Cleaner σ PackageManifestFields)) (f : String)
    (cl : Cleaner σ PackageManifestFields)
    (w w0 : World σ PackageManifestFields) (req : ObjectKey) (fetched : PackageManifest)
    (L D G : Outcome σ PackageManifestFields) (e : Err)
    (hget : w.Get c req = (w0, .ok fetched))
    (hL : ensureDynamicCacheLabel c w0 fetched = L)
    (hLerr : L.err = none)
    (hdel : DeletionTimestampIsZero L.obj.Meta = false)
    (hD : Reconcile.deletionLoop c pre L.world L.obj = D)
    (hDerr : D.err = none)
    (hG : (cl c D.obj).run c f D.world = G)
    (hfail : G.err = some e) :
    Reconcile c (pre ++ (f, cl) :: post) w req =
      ⟨G.world, some G.obj,
        some (.wrap ("error occurred while cleaning up the '" ++ f ++
          "' finalizer of PackageManifest") e)⟩ ∧
    (∃ evs, G.world.trace = D.world.trace ++ evs ∧
      ∀ ev ∈ evs, ∃ call, ev.call = .Cleaner f call) ∧
    (pre = [] → D.world = L.world ∧ D.obj = L.obj) ∧
    (∀ (p1 p2 : List (String × Cleaner σ PackageManifestFields)) (g : String)
        (clg : Cleaner σ PackageManifestFields)
        (D1 G1 R1 : Outcome σ PackageManifestFields),
      pre = p1 ++ (g, clg) :: p2 →
      Reconcile.deletionLoop c p1 L.world L.obj = D1 →
      (clg c D1.obj).run c g D1.world = G1 →
      RemoveFinalizers c G1.world G1.obj [g] = R1 →
      D1.err = none ∧ G1.err = none ∧ R1.err = none ∧
      Reconcile.deletionLoop c (p1 ++ [(g, clg)]) L.world L.obj = R1 ∧
      (g ∈ G1.obj.Meta.Finalizers →
        R1.world.trace = G1.world.trace ++
          [⟨.Patch
              { G1.obj with Meta := { G1.obj.Meta with
                  Finalizers := G1.obj.Meta.Finalizers.filter (fun x => x != g) } }
              ⟨G1.obj.Meta.ResourceVersion,
                G1.obj.Meta.Finalizers.filter (fun x => x != g)⟩, none⟩]) ∧
      (g ∉ G1.obj.Meta.Finalizers → R1.world = G1.world ∧ R1.obj = G1.obj) ∧
      (c.AppliesPatch → g ∉ R1.obj.Meta.Finalizers) ∧
      (∃ evs, D.world.trace = R1.world.trace ++ evs)) := by
  refine ⟨?_, ?_, ?_, ?_⟩
  · subst hL
    rw [Reconcile_deletion c _ w w0 req fetched hget hLerr hdel]
    have happ := deletionLoop_append c pre ((f, cl) :: post)
      (ensureDynamicCacheLabel c w0 fetched).world (ensureDynamicCacheLabel c w0 fetched).obj
      (by rw [hD]; exact hDerr)
    rw [hD] at happ
    rw [happ, deletionLoop_cons_cleanerErr c f cl post D.world D.obj e
      (by rw [hG]; exact hfail), hG]
  · rw [← hG]
    exact cleanerRun_trace c f (cl c D.obj) D.world
  · intro hpre
    subst hpre
    rw [← hD]
    exact ⟨rfl, rfl⟩
  · intro p1 p2 g clg D1 G1 R1 hsplit hD1 hG1 hR1
    subst hsplit
    have hD1ok : D1.err = none := by
      rw [← hD1]
      exact deletionLoop_prefix_ok c p1 ((g, clg) :: p2) _ _ (by rw [hD]; exact hDerr)
    have hstep : Reconcile.deletionLoop c ((g, clg) :: p2) D1.world D1.obj = D := by
      rw [← hD, deletionLoop_append c p1 ((g, clg) :: p2) _ _ (by rw [hD1]; exact hD1ok), hD1]
    have hG1ok : G1.err = none := by
      cases h : G1.err with
      | none => rfl
      | some e1 =>
        rw [deletionLoop_cons_cleanerErr c g clg p2 D1.world D1.obj e1
          (by rw [hG1]; exact h)] at hstep
        rw [← hstep] at hDerr
        simp at hDerr
    have hR1ok : R1.err = none := by
      cases h : R1.err with
      | none => rfl
      | some e1 =>
        rw [deletionLoop_cons_removeErr c g clg p2 D1.world D1.obj e1
          (by rw [hG1]; exact hG1ok) (by rw [hG1, hR1]; exact h)] at hstep
        rw [← hstep] at hDerr
        simp at hDerr
    have hrest : Reconcile.deletionLoop c p2 R1.world R1.obj = D := by
      rw [← hstep, deletionLoop_cons_ok c g clg p2 D1.world D1.obj
        (by rw [hG1]; exact hG1ok) (by rw [hG1, hR1]; exact hR1ok), hG1, hR1]
    refine ⟨hD1ok, hG1ok, hR1ok, ?_, ?_, ?_, ?_, ?_⟩
    · rw [deletionLoop_append c p1 [(g, clg)] _ _ (by rw [hD1]; exact hD1ok), hD1,
        deletionLoop_cons_ok c g clg [] D1.world D1.obj
          (by rw [hG1]; exact hG1ok) (by rw [hG1, hR1]; exact hR1ok), hG1, hR1]
      rw [Reconcile.deletionLoop]
      exact outcome_eq_of_err_none R1 hR1ok
    · intro hmem
      have hp := RemoveFinalizers_patch c G1.world G1.obj [g]
        ⟨g, List.mem_singleton.mpr rfl, hmem⟩
        (G1.obj.Meta.Finalizers.filter (fun x => x != g))
        (filter_not_contains_singleton _ _).symm
      rw [hR1] at hp
      have he : errOf (c.Patch G1.world.store
          { G1.obj with Meta := { G1.obj.Meta with
              Finalizers := G1.obj.Meta.Finalizers.filter (fun x => x != g) } }
          ⟨G1.obj.Meta.ResourceVersion,
            G1.obj.Meta.Finalizers.filter (fun x => x != g)⟩).2 = none := by
        have h := hR1ok
        rw [hp] at h
        simpa using h
      rw [hp]
      simp only [he]
    · intro hnot
      have hn := RemoveFinalizers_noop c G1.world G1.obj [g]
        (fun n hn => by rw [List.mem_singleton.mp hn]; exact hnot)
      rw [hR1] at hn
      rw [hn]
      exact ⟨rfl, rfl⟩
    · intro hs hmem
      rw [← hR1, RemoveFinalizers_obj_finalizers c _ _ _ hs] at hmem
      simp at hmem
    · obtain ⟨evs, h, _⟩ := deletionLoop_trace c p2 R1.world R1.obj
      rw [hrest] at h
      exact ⟨evs, h⟩

/-- Witness of C4 (amended): the two-cleaner registry on the in-memory store,
with `pre` the succeeding entry `"a"` and the failing entry `"b"`: the pass
returns the cleanup error of `"b"`, and the removal of `"a"` issued one
successful `Patch` sending the list `["b"]`. -/
theorem Reconcile_deletion_cleaner_error_witness :
    (Reconcile memClient twoCleaners ⟨⟨[deletingManifest], []⟩, []⟩ exampleRequest).err =
      some (.wrap ("error occurred while cleaning up the '" ++ "b" ++
        "' finalizer of PackageManifest") (.other "cleanup failed")) ∧
    (RemoveFinalizers memClient ⟨⟨[deletingManifest], []⟩, [⟨.Get exampleRequest, none⟩]⟩
      deletingManifest ["a"]).world.trace =
      [⟨.Get exampleRequest, none⟩] ++
        [⟨.Patch { deletingManifest with Meta := { deletingManifest.Meta with
              Finalizers := ["b"] } } ⟨"1", ["b"]⟩, none⟩] :=
  ⟨congrArg PassResult.err
    (Reconcile_deletion_cleaner_error memClient
      [("a", fun _ obj => .Return obj none)] [] "b"
      (fun _ obj => .Return obj (some (.other "cleanup failed")))
      ⟨⟨[deletingManifest], []⟩, []⟩ _ exampleRequest deletingManifest _ _ _
      (.other "cleanup failed") rfl rfl rfl rfl rfl rfl rfl rfl).1,
   ((Reconcile_deletion_cleaner_error memClient
      [("a", fun _ obj => .Return obj none)] [] "b"
      (fun _ obj => .Return obj (some (.other "cleanup failed")))
      ⟨⟨[deletingManifest], []⟩, []⟩ _ exampleRequest deletingManifest _ _ _
      (.other "cleanup failed") rfl rfl rfl rfl rfl rfl rfl rfl).2.2.2
      [] [] "a" (fun _ obj => .Return obj none)
      ⟨⟨⟨[deletingManifest], []⟩, [⟨.Get exampleRequest, none⟩]⟩, deletingManifest, none⟩
      ⟨⟨⟨[deletingManifest], []⟩, [⟨.Get exampleRequest, none⟩]⟩, deletingManifest, none⟩
      _ rfl rfl rfl rfl).2.2.2.2.1 (by decide)⟩

theorem jobNameFromPackageBundleImage_ok (n r name : String)
    (h : jobNameFromPackageBundleImage n r = .ok name) :
    ∃ pre d, r.data = pre ++ ':' :: d ∧ ':' ∉ d ∧
      name = "job-" ++ n ++ "-" ++ String.mk d := by
  unfold jobNameFromPackageBundleImage at h
  by_cases hlen : (Split ':' r.data).length = 1
  · simp [hlen] at h
  · simp only [hlen, if_false, Except.ok.injEq] at h
    have hm : ':' ∈ r.data := by
      by_contra hc
      exact hlen ((Split_length_eq_one_iff ':' r.data).mpr hc)
    obtain ⟨pre, d, h1, h2⟩ := exists_last_sep ':' r.data hm
    refine ⟨pre, d, h1, h2, ?_⟩
    rw [← h, h1, Split_getLastD_append_sep ':' pre d h2]

/-- C7 (counterexample): for the live manifest `foo` in namespace `ns-a` with
`spec.targetNamespace` `ns-b`, the job `Reconcile` creates has the arguments
`--namespace ns-a --package-name foo`: the namespace argument is not the target
namespace. -/
theorem Reconcile_created_job_args_not_targetNamespace :
    exampleManifest.Rest.Spec.TargetNamespace = "ns-b" ∧
    (⟨.Create exampleJob, none⟩ : Event PackageManifestFields) ∈
      (Reconcile memClient (FinalizersToCleaners MemStore PackageManifestFields)
        ⟨⟨[exampleManifest], []⟩, []⟩ exampleRequest).world.trace ∧
    exampleJob.Containers.map (fun k => k.Args) =
      [["--namespace", "ns-a", "--package-name", "foo"]] ∧
    exampleJob.Containers.map (fun k => k.Args) ≠
      [["--namespace", exampleManifest.Rest.Spec.TargetNamespace, "--package-name",
        exampleManifest.Meta.Name]] := by
  decide

/-- C7 (amended): every job a pass of `Reconcile` creates is built from the
manifest `pm` the pass holds: its image reference is `pre ++ ":" ++ d` with no
`':'` in `d`, the job is named `job-{pm.Name}-{d}`, lies in the manifest's own
namespace and has exactly one container, the package loader, whose arguments
are `--namespace`, the manifest's own namespace (`metadata.namespace`),
`--package-name`, the manifest's name. -/
theorem Reconcile_created_job {σ : Type} (c : Client σ PackageManifestFields)
    (reg : List (String × Cleaner σ PackageManifestFields)) (s : σ) (req : ObjectKey)
    (j : Job) (e : Option Err)
    (h : (⟨.Create j, e⟩ : Event PackageManifestFields) ∈
      (Reconcile c reg ⟨s, []⟩ req).world.trace) :
    ∃ pm pre d,
      (Reconcile c reg ⟨s, []⟩ req).packageManifest = some pm ∧
      pm.Rest.Spec.PackageImage.data = pre ++ ':' :: d ∧ ':' ∉ d ∧
      j.Name = "job-" ++ pm.Meta.Name ++ "-" ++ String.mk d ∧
      j.Namespace = pm.Meta.Namespace ∧
      j.Containers =
        [⟨"package-loader", "quay.io/mt-sre/package-loader", ["package-loader"],
          ["--namespace", pm.Meta.Namespace, "--package-name", pm.Meta.Name]⟩] := by
  obtain ⟨evs, ht, hcr⟩ := Reconcile_trace c reg ⟨s, []⟩ req
  rw [ht] at h
  simp only [List.nil_append] at h
  obtain ⟨pm, name, err, hpm, hname, hj, _, _⟩ := hcr j e h
  obtain ⟨pre, d, h1, h2, h3⟩ := jobNameFromPackageBundleImage_ok _ _ _ hname
  refine ⟨pm, pre, d, hpm, h1, h2, ?_, ?_, ?_⟩
  · rw [hj, ← h3]; rfl
  · rw [hj]; rfl
  · rw [hj]; rfl

/-- Witness of C7 (amended): the job created for the manifest `foo` of namespace
`ns-a` on the in-memory store. -/
theorem Reconcile_created_job_witness :
    (⟨.Create exampleJob, none⟩ : Event PackageManifestFields) ∈
      (Reconcile memClient (FinalizersToCleaners MemStore PackageManifestFields)
        ⟨⟨[exampleManifest], []⟩, []⟩ exampleRequest).world.trace ∧
    ∃ pm pre d,
      (Reconcile memClient (FinalizersToCleaners MemStore PackageManifestFields)
        ⟨⟨[exampleManifest], []⟩, []⟩ exampleRequest).packageManifest = some pm ∧
      pm.Rest.Spec.PackageImage.data = pre ++ ':' :: d ∧ ':' ∉ d ∧
      exampleJob.Name = "job-" ++ pm.Meta.Name ++ "-" ++ String.mk d ∧
      exampleJob.Namespace = pm.Meta.Namespace ∧
      exampleJob.Containers =
        [⟨"package-loader", "quay.io/mt-sre/package-loader", ["package-loader"],
          ["--namespace", pm.Meta.Namespace, "--package-name", pm.Meta.Name]⟩] :=
  ⟨by decide,
    Reconcile_created_job memClient (FinalizersToCleaners MemStore PackageManifestFields)
      ⟨[exampleManifest], []⟩ exampleRequest exampleJob none (by decide)⟩

/-- C9: `Create` is issued in a pass of `Reconcile` only if `Get` of that very
job reported NotFound in the same pass; the same holds of the calls of two
passes run in sequence; hence, when no `Get` of the job reports NotFound in two
passes in sequence (the job exists, whatever its conditions), no `Create` is
issued. -/
theorem Reconcile_get_before_create {σ : Type} (c : Client σ PackageManifestFields)
    (reg : List (String × Cleaner σ PackageManifestFields)) (s : σ) (req : ObjectKey) :
    (∀ j e, (⟨.Create j, e⟩ : Event PackageManifestFields) ∈
        (Reconcile c reg ⟨s, []⟩ req).world.trace →
      ∃ err, IsNotFound err = true ∧
        (⟨.GetJob ⟨j.Namespace, j.Name⟩, some err⟩ : Event PackageManifestFields) ∈
          (Reconcile c reg ⟨s, []⟩ req).world.trace) ∧
    (∀ j e, (⟨.Create j, e⟩ : Event PackageManifestFields) ∈
        (Reconcile c reg (Reconcile c reg ⟨s, []⟩ req).world req).world.trace →
      ∃ err, IsNotFound err = true ∧
        (⟨.GetJob ⟨j.Namespace, j.Name⟩, some err⟩ : Event PackageManifestFields) ∈
          (Reconcile c reg (Reconcile c reg ⟨s, []⟩ req).world req).world.trace) ∧
    ((∀ key err, (⟨.GetJob key, some err⟩ : Event PackageManifestFields) ∈
        (Reconcile c reg (Reconcile c reg ⟨s, []⟩ req).world req).world.trace →
        IsNotFound err = false) →
      ∀ j e, (⟨.Create j, e⟩ : Event PackageManifestFields) ∉
        (Reconcile c reg (Reconcile c reg ⟨s, []⟩ req).world req).world.trace) := by
  obtain ⟨evs1, ht1, hcr1⟩ := Reconcile_trace c reg ⟨s, []⟩ req
  obtain ⟨evs2, ht2, hcr2⟩ := Reconcile_trace c reg (Reconcile c reg ⟨s, []⟩ req).world req
  simp only [List.nil_append] at ht1
  have h1 : ∀ j e, (⟨.Create j, e⟩ : Event PackageManifestFields) ∈
        (Reconcile c reg ⟨s, []⟩ req).world.trace →
      ∃ err, IsNotFound err = true ∧
        (⟨.GetJob ⟨j.Namespace, j.Name⟩, some err⟩ : Event PackageManifestFields) ∈
          (Reconcile c reg ⟨s, []⟩ req).world.trace := by
    intro j e h
    rw [ht1] at h ⊢
    obtain ⟨_, _, err, _, _, _, hnf, hmem⟩ := hcr1 j e h
    exact ⟨err, hnf, hmem⟩
  have h2 : ∀ j e, (⟨.Create j, e⟩ : Event PackageManifestFields) ∈
        (Reconcile c reg (Reconcile c reg ⟨s, []⟩ req).world req).world.trace →
      ∃ err, IsNotFound err = true ∧
        (⟨.GetJob ⟨j.Namespace, j.Name⟩, some err⟩ : Event PackageManifestFields) ∈
          (Reconcile c reg (Reconcile c reg ⟨s, []⟩ req).world req).world.trace := by
    intro j e h
    rw [ht2] at h ⊢
    rcases List.mem_append.mp h with h | h
    · obtain ⟨err, hnf, hmem⟩ := h1 j e h
      exact ⟨err, hnf, List.mem_append.mpr (Or.inl hmem)⟩
    · obtain ⟨_, _, err, _, _, _, hnf, hmem⟩ := hcr2 j e h
      exact ⟨err, hnf, List.mem_append.mpr (Or.inr hmem)⟩
  refine ⟨h1, h2, ?_⟩
  intro hex j e h
  obtain ⟨err, hnf, hmem⟩ := h2 j e h
  have := hex _ err hmem
  rw [hnf] at this
  exact Bool.noConfusion this

/-- Witness of C9: on the in-memory store that already holds the job of manifest
`foo`, with the condition `Failed=True`, two passes in sequence both return
`nil`, issue `Get` of the job twice, both found, and issue no `Create`. -/
theorem Reconcile_get_before_create_witness :
    (Reconcile memClient (FinalizersToCleaners MemStore PackageManifestFields)
      (Reconcile memClient (FinalizersToCleaners MemStore PackageManifestFields)
        ⟨⟨[exampleManifest], [failedJob]⟩, []⟩ exampleRequest).world exampleRequest).err =
          none ∧
    ((Reconcile memClient (FinalizersToCleaners MemStore PackageManifestFields)
      (Reconcile memClient (FinalizersToCleaners MemStore PackageManifestFields)
        ⟨⟨[exampleManifest], [failedJob]⟩, []⟩ exampleRequest).world
        exampleRequest).world.trace.filter (fun ev => ev.call.isJobCall)) =
      [⟨.GetJob ⟨"ns-a", "job-foo-abc123"⟩, none⟩,
       ⟨.GetJob ⟨"ns-a", "job-foo-abc123"⟩, none⟩] ∧
    ((Reconcile memClient (FinalizersToCleaners MemStore PackageManifestFields)
      (Reconcile memClient (FinalizersToCleaners MemStore PackageManifestFields)
        ⟨⟨[exampleManifest], [failedJob]⟩, []⟩ exampleRequest).world
        exampleRequest).world.trace.filter (fun ev => ev.call.isCreate)) = [] := by
  have hT : ((Reconcile memClient (FinalizersToCleaners MemStore PackageManifestFields)
      (Reconcile memClient (FinalizersToCleaners MemStore PackageManifestFields)
        ⟨⟨[exampleManifest], [failedJob]⟩, []⟩ exampleRequest).world
        exampleRequest).world.trace.filter (fun ev => ev.call.isJobCall)) =
      [⟨.GetJob ⟨"ns-a", "job-foo-abc123"⟩, none⟩,
       ⟨.GetJob ⟨"ns-a", "job-foo-abc123"⟩, none⟩] := by decide
  refine ⟨by decide, hT, ?_⟩
  have hno := (Reconcile_get_before_create memClient
    (FinalizersToCleaners MemStore PackageManifestFields)
    ⟨[exampleManifest], [failedJob]⟩ exampleRequest).2.2 (by
      intro key err h
      have hm : (⟨.GetJob key, some err⟩ : Event PackageManifestFields) ∈
          (Reconcile memClient (FinalizersToCleaners MemStore PackageManifestFields)
            (Reconcile memClient (FinalizersToCleaners MemStore PackageManifestFields)
              ⟨⟨[exampleManifest], [failedJob]⟩, []⟩ exampleRequest).world
              exampleRequest).world.trace.filter (fun ev => ev.call.isJobCall) :=
        List.mem_filter.mpr ⟨h, rfl⟩
      rw [hT] at hm
      simp at hm)
  apply List.filter_eq_nil_iff.mpr
  intro ev hev hc
  obtain ⟨call, err⟩ := ev
  cases call with
  | Create j => exact hno j err hev
  | Get _ => simp [Call.isCreate] at hc
  | Update _ => simp [Call.isCreate] at hc
  | Patch _ _ => simp [Call.isCreate] at hc
  | GetJob _ => simp [Call.isCreate] at hc
  | Cleaner _ _ => simp [Call.isCreate] at hc

end PackageOperator
